import Mathlib

/-!
Verification of the homebriefing integration layer (cookie jar, session store,
auth handshake, SOAP response heuristics, Field 18/19 codec) against its
natural-language specification.  Strings are modelled as `List Char`; the
JavaScript regular expressions used by the code are realised as explicit
scanning functions whose semantics are derived from the concrete patterns.
-/

set_option maxRecDepth 8000

namespace Homebriefing

/-- `containsSub t s` is JavaScript `s.includes(t)`: `t` occurs as a
contiguous substring of `s`. -/
def containsSub (t s : List Char) : Bool :=
  (List.range (s.length + 1)).any (fun i => t.isPrefixOf (s.drop i))

/-! ## Session-expiry detection (`isSessionExpiredResponse`, client.ts 16–31)

The six `SESSION_EXPIRY_PATTERNS` all have the shape
`word₁.*word₂.*…` (case-insensitive).  `RegExp.test` for such a pattern
holds exactly when the words occur in order, with the gaps between
consecutive words free of newline characters (`.` does not match `'\n'`).
`chainFrom` realises exactly this search. -/

/-- Gap contains no newline (`.` in a JS regex does not match `'\n'`). -/
def noNewline (s : List Char) : Bool := s.all (fun c => c ≠ '\n')

/-- Match the remaining words of a `w₁.*w₂.*…` pattern against `s`: some
newline-free gap, then the word, then the rest of the chain. -/
def chainFrom : List (List Char) → List Char → Bool
  | [], _ => true
  | w :: ws, s =>
    (List.range (s.length + 1)).any (fun i =>
      noNewline (s.take i) && w.isPrefixOf (s.drop i) &&
        chainFrom ws ((s.drop i).drop w.length))

/-- `reTest [w₁, …, wₖ] s` is `(/w₁.*w₂.*…*wₖ/).test s`: the first word may
start anywhere, the gaps between words are newline-free. -/
def reTest (words : List (List Char)) (s : List Char) : Bool :=
  match words with
  | [] => true
  | w :: ws =>
    (List.range (s.length + 1)).any (fun i =>
      w.isPrefixOf (s.drop i) && chainFrom ws ((s.drop i).drop w.length))

/-- The `SESSION_EXPIRY_PATTERNS` list (client.ts 6–13), each regex given by
its sequence of literal words. -/
def SESSION_EXPIRY_PATTERNS : List (List (List Char)) :=
  [ ["session".toList, "expired".toList],
    ["invalid".toList, "session".toList],
    ["not".toList, "logged".toList, "in".toList],
    ["login".toList, "required".toList],
    ["authentication".toList, "failed".toList],
    ["unauthorized".toList] ]

/-- `isSessionExpiredResponse` (client.ts 16–31): any expiry pattern matches
the lowercased body, or the body contains `<!DOCTYPE html` or `<html`. -/
def isSessionExpiredResponse (xml : List Char) : Bool :=
  SESSION_EXPIRY_PATTERNS.any (fun p => reTest p (xml.map Char.toLower)) ||
    containsSub "<!DOCTYPE html".toList xml ||
    containsSub "<html".toList xml

/-! ## Cookie merge (`mergeCookies`, client.ts 66–88) -/

/-- Split a char list at every occurrence of the two-character separator
`"; "` (JavaScript `existing.split('; ')`). -/
def splitSemiSp : List Char → List (List Char)
  | [] => [[]]
  | [c] => [[c]]
  | c :: d :: rest =>
    if c = ';' ∧ d = ' ' then [] :: splitSemiSp rest
    else
      match splitSemiSp (d :: rest) with
      | [] => [[c]]
      | h :: t => (c :: h) :: t

/-- Split a char list at every `'='` (JavaScript `part.split('=')`). -/
def splitEq : List Char → List (List Char)
  | [] => [[]]
  | c :: rest =>
    if c = '=' then [] :: splitEq rest
    else
      match splitEq rest with
      | [] => [[c]]
      | h :: t => (c :: h) :: t

/-- `const [key, value] = part.split('='); if (key && value) …` — the first
two segments, both required nonempty. -/
def parseCookiePart (part : List Char) : Option (List Char × List Char) :=
  match splitEq part with
  | k :: v :: _ => if k ≠ [] ∧ v ≠ [] then some (k, v) else none
  | _ => none

/-- JavaScript `Map.set`: replace in place if the key is present, else
append. -/
def upsert (m : List (List Char × List Char)) (p : List Char × List Char) :
    List (List Char × List Char) :=
  if m.any (fun q => q.1 = p.1) then
    m.map (fun q => if q.1 = p.1 then p else q)
  else m ++ [p]

/-- Fold a sequence of `Map.set` calls. -/
def upsertAll (m : List (List Char × List Char))
    (l : List (List Char × List Char)) : List (List Char × List Char) :=
  l.foldl upsert m

/-- The cookie map built from the `existing` header string
(client.ts 70–77): skip entirely when the string is empty, otherwise
`Map.set` each parsable `"; "`-separated part. -/
def parseCookieHeader (existing : List Char) : List (List Char × List Char) :=
  if existing = [] then []
  else upsertAll [] ((splitSemiSp existing).filterMap parseCookiePart)

/-- JavaScript `array.join(sep)` for `sep = "; "` resp. `" "`. -/
def joinSep (sep : List Char) : List (List Char) → List Char
  | [] => []
  | [p] => p
  | p :: q :: rest => p ++ sep ++ joinSep sep (q :: rest)

/-- Serialize a cookie map as `name=value; name=value` (client.ts 85–87). -/
def serializeCookies (m : List (List Char × List Char)) : List Char :=
  joinSep "; ".toList (m.map (fun p => p.1 ++ '=' :: p.2))

/-- `mergeCookies` (client.ts 66–88): parse `existing` into a map, `Map.set`
every new cookie, serialize. The newly observed cookies are given as the
(insertion-ordered, name-unique) entry list of the JS `Map`. -/
def mergeCookies (existing : List Char)
    (newCookies : List (List Char × List Char)) : List Char :=
  serializeCookies (upsertAll (parseCookieHeader existing) newCookies)

/-- Modelled from the spec: parse a cookie header string by standard
cookie-set semantics — split on `"; "`, the name is the text before the
first `'='`, the value everything after it. -/
def specParseCookie (s : List Char) : List (List Char × List Char) :=
  if s = [] then []
  else (splitSemiSp s).map (fun p =>
    (p.takeWhile (fun c => c ≠ '='), (p.dropWhile (fun c => c ≠ '=')).tail))

def lookupA (l : List (List Char × List Char)) (k : List Char) :
    Option (List Char) :=
  (l.find? (fun q => q.1 = k)).map (fun q => q.2)

def lookupLastA (l : List (List Char × List Char)) (k : List Char) :
    Option (List Char) :=
  lookupA l.reverse k

/-- Modelled from the spec: the output value for a name is the new map's
value when present, otherwise the most recently observed value in the
existing string. -/
def mergedValueOkB (inP newC : List (List Char × List Char))
    (p : List Char × List Char) : Bool :=
  match lookupA newC p.1 with
  | some v => decide (p.2 = v)
  | none =>
    match lookupLastA inP p.1 with
    | some v => decide (p.2 = v)
    | none => false

/-- Modelled from the spec: claim C2 as a decidable predicate — every name
of either input occurs in the (spec-parsed) output, exactly once, with the
most recently observed value; no other names occur. -/
def cookieClaimB (existing : List Char)
    (newC : List (List Char × List Char)) : Bool :=
  let inP := specParseCookie existing
  let out := specParseCookie (mergeCookies existing newC)
  inP.all (fun p => decide (p.1 ∈ out.map Prod.fst)) &&
  newC.all (fun p => decide (p.1 ∈ out.map Prod.fst)) &&
  out.all (fun p =>
    decide (p.1 ∈ inP.map Prod.fst) || decide (p.1 ∈ newC.map Prod.fst)) &&
  decide ((out.map Prod.fst).Nodup) &&
  out.all (fun p => mergedValueOkB inP newC p)

/-- A cookie name or value that survives the round trip: nonempty, free of
`'='` and `';'`. -/
def cookieTextOk (nv : List Char) : Prop := nv ≠ [] ∧ '=' ∉ nv ∧ ';' ∉ nv

instance (nv : List Char) : Decidable (cookieTextOk nv) := by
  unfold cookieTextOk
  infer_instance

/-! ## Field 18 codec (part_001, 452–521)

`parseField18String` tokenizes with the global regex
`([A-Z0-9]+)\/([^ ]+(?:\s+[^ /]+)*?)(?=\s+[A-Z0-9]+\/|$)`.  The scan below
realises its semantics: a maximal `[A-Z0-9]` run followed by `/`, then a
maximal non-space run lazily extended by whitespace-plus-`[^ /]` groups
until the lookahead (whitespace, code run, `/`) or the end of the string
holds, retrying at the next start position on failure. -/

/-- A character of the `[A-Z0-9]` code class. -/
def isF18Code (c : Char) : Bool := ('A' ≤ c && c ≤ 'Z') || ('0' ≤ c && c ≤ '9')

/-- An ASCII whitespace character (JS `\s`, restricted to ASCII). -/
def isJsWs (c : Char) : Bool :=
  c = ' ' || c = '\t' || c = '\n' || c = '\r' || c = '\x0b' || c = '\x0c'

/-- The lookahead `(?=\s+[A-Z0-9]+\/|$)`. -/
def f18Boundary (s : List Char) : Bool :=
  match s with
  | [] => true
  | _ :: _ =>
    let w := s.takeWhile isJsWs
    if w.isEmpty then false
    else
      let r := s.dropWhile isJsWs
      let run := r.takeWhile isF18Code
      !run.isEmpty && ((r.drop run.length).head? == some '/')

/-- The lazy `(?:\s+[^ /]+)*?` extension: stop as soon as the lookahead
holds, otherwise consume one whitespace-run plus `[^ /]`-run group. -/
def f18Extend : Nat → List Char → List Char → Option (List Char)
  | 0, _, _ => none
  | fuel + 1, acc, rest =>
    if f18Boundary rest then some acc
    else
      let w := rest.takeWhile isJsWs
      if w.isEmpty then none
      else
        let r1 := rest.dropWhile isJsWs
        let u := r1.takeWhile (fun c => !(c = ' ' || c = '/'))
        if u.isEmpty then none
        else f18Extend fuel (acc ++ w ++ u) (r1.drop u.length)

/-- The value part `[^ ]+(?:\s+[^ /]+)*?` with its lookahead. -/
def f18Value (s : List Char) : Option (List Char) :=
  let v0 := s.takeWhile (fun c => c ≠ ' ')
  if v0.isEmpty then none
  else f18Extend (s.length + 1) v0 (s.drop v0.length)

/-- Attempt a match anchored at the start of `s`; yields code, value and
total match length. -/
def f18TryAt (s : List Char) : Option (List Char × List Char × Nat) :=
  let run := s.takeWhile isF18Code
  if run.isEmpty then none
  else
    match s.drop run.length with
    | '/' :: r2 =>
      match f18Value r2 with
      | some v => some (run, v, run.length + 1 + v.length)
      | none => none
    | _ => none

/-- Earliest match in `s` (regex search): try each start position. -/
def f18Find : List Char → Option (Nat × List Char × List Char × Nat)
  | [] => none
  | c :: rest =>
    match f18TryAt (c :: rest) with
    | some (code, v, len) => some (0, code, v, len)
    | none => (f18Find rest).map (fun t => (t.1 + 1, t.2.1, t.2.2.1, t.2.2.2))

/-- The repeated global-match loop (`str.match(/…/g)`), as (code, value)
pairs. -/
def tokens18Aux : Nat → List Char → List (List Char × List Char)
  | 0, _ => []
  | fuel + 1, s =>
    match f18Find s with
    | none => []
    | some (i, code, v, len) => (code, v) :: tokens18Aux fuel (s.drop (i + len))

/-- All `CODE/value` tokens of a Field 18 string. -/
def tokens18 (s : List Char) : List (List Char × List Char) :=
  tokens18Aux (s.length + 1) s

/-- `Field18Data` (part_001): structured Field 18 sub-fields. -/
structure Field18Data where
  sts : List (List Char)
  pbn : List (List Char)
  per : List Char
  eurProtected : Bool
  rfp : List Char
  stayInfo : List (List Char)
  textFields : List (List Char × List Char)
deriving DecidableEq

/-- The empty `Field18Data` built at the top of `parseField18String`. -/
def defaultField18Data : Field18Data :=
  { sts := [], pbn := [], per := [], eurProtected := false, rfp := [],
    stayInfo := List.replicate 9 [], textFields := [] }

/-- JavaScript `value.split(sep)` for a one-character separator. -/
def splitChar (sep : Char) : List Char → List (List Char)
  | [] => [[]]
  | c :: rest =>
    if c = sep then [] :: splitChar sep rest
    else
      match splitChar sep rest with
      | [] => [[c]]
      | h :: t => (c :: h) :: t

/-- `value.match(/[A-Z]\d/g)`: left-to-right non-overlapping scan for an
uppercase letter followed by a digit. -/
def pbnMatches : List Char → List (List Char)
  | [] => []
  | [_] => []
  | a :: b :: rest =>
    if ('A' ≤ a && a ≤ 'Z') && ('0' ≤ b && b ≤ '9') then
      [a, b] :: pbnMatches rest
    else pbnMatches (b :: rest)

/-- An ASCII digit. -/
def isDigitCh (c : Char) : Bool := '0' ≤ c && c ≤ '9'

/-- Numeric value of a digit character. -/
def digitVal (c : Char) : Nat := c.toNat - '0'.toNat

/-- Decimal value of a digit list. -/
def digitsToNat (ds : List Char) : Nat :=
  ds.foldl (fun n c => n * 10 + digitVal c) 0

/-- JavaScript `parseInt` on a `[A-Z0-9]*` suffix: value of the leading
digit run, `NaN` (here `none`) if there is none. -/
def parseIntPrefix (s : List Char) : Option Nat :=
  let ds := s.takeWhile isDigitCh
  if ds.isEmpty then none else some (digitsToNat ds)

/-- The per-token `switch` of `parseField18String` (part_001, 499–517). -/
def f18Step (d : Field18Data) (t : List Char × List Char) : Field18Data :=
  let code := t.1
  let value := t.2
  if code = "STS".toList then
    { d with sts := (splitChar ' ' value).filter (fun x => x ≠ []) }
  else if code = "PBN".toList then
    { d with pbn := pbnMatches value }
  else if code = "PER".toList then
    { d with per := value }
  else if code = "EUR".toList ∧ value = "PROTECTED".toList then
    { d with eurProtected := true }
  else if code = "RFP".toList then
    { d with rfp := value }
  else if "STAYINFO".toList.isPrefixOf code then
    match parseIntPrefix (code.drop 8) with
    | some n =>
      if 1 ≤ n ∧ n ≤ 9 then { d with stayInfo := d.stayInfo.set (n - 1) value }
      else d
    | none => d
  else
    { d with textFields := upsert d.textFields (code, value) }

/-- `parseField18String` (part_001, 486–521). -/
def parseField18String (s : List Char) : Field18Data :=
  if s = [] then defaultField18Data
  else (tokens18 s).foldl f18Step defaultField18Data

/-- `buildField18String` (part_001, 452–483): push the present sub-fields as
`CODE/value` parts in fixed order and join with spaces. -/
def buildField18String (d : Field18Data) : List Char :=
  let parts : List (List Char) :=
    (if d.sts ≠ [] then ["STS".toList ++ '/' :: joinSep [' '] d.sts] else []) ++
    (if d.pbn ≠ [] then ["PBN".toList ++ '/' :: d.pbn.flatten] else []) ++
    (if d.eurProtected then ["EUR/PROTECTED".toList] else []) ++
    (if d.per ≠ [] then ["PER".toList ++ '/' :: d.per] else []) ++
    (if d.rfp ≠ [] then ["RFP".toList ++ '/' :: d.rfp] else []) ++
    (d.textFields.filterMap (fun p =>
      if p.2 ≠ [] then some (p.1 ++ '/' :: p.2) else none)) ++
    (d.stayInfo.enum.filterMap (fun p =>
      if p.2 ≠ [] then
        some ("STAYINFO".toList ++ (Nat.repr (p.1 + 1)).toList ++ '/' :: p.2)
      else none))
  joinSep [' '] parts

/-! ## Field 19 codec (part_001, 524–698) -/

/-- `Field19Data` (part_001, 524–546). -/
structure Field19Data where
  endurance : List Char
  persons : List Char
  radioUhf : Bool
  radioVhf : Bool
  radioElba : Bool
  survivalPolar : Bool
  survivalDesert : Bool
  survivalMaritime : Bool
  survivalJungle : Bool
  jacketsLight : Bool
  jacketsFluores : Bool
  jacketsUhf : Bool
  jacketsVhf : Bool
  dinghiesEnabled : Bool
  dinghiesNumber : List Char
  dinghiesCapacity : List Char
  dinghiesCover : Bool
  dinghiesColour : List Char
  aircraftColour : List Char
  remarks : List Char
  pilotInCommand : List Char
deriving DecidableEq

/-- `defaultField19Data` (part_001, 548–570). -/
def defaultField19Data : Field19Data :=
  { endurance := [], persons := [], radioUhf := false, radioVhf := true,
    radioElba := true, survivalPolar := false, survivalDesert := false,
    survivalMaritime := false, survivalJungle := false, jacketsLight := false,
    jacketsFluores := false, jacketsUhf := false, jacketsVhf := false,
    dinghiesEnabled := false, dinghiesNumber := [], dinghiesCapacity := [],
    dinghiesCover := false, dinghiesColour := [], aircraftColour := [],
    remarks := [], pilotInCommand := [] }

/-- The combined letter set of the `R\` radio token. -/
def radioValue (d : Field19Data) : List Char :=
  (if d.radioUhf then ['U'] else []) ++
  (if d.radioVhf then ['V'] else []) ++
  (if d.radioElba then ['E'] else [])

/-- The combined letter set of the `S\` survival token. -/
def survivalValue (d : Field19Data) : List Char :=
  (if d.survivalPolar then ['P'] else []) ++
  (if d.survivalDesert then ['D'] else []) ++
  (if d.survivalMaritime then ['M'] else []) ++
  (if d.survivalJungle then ['J'] else [])

/-- The combined letter set of the `J\` jackets token. -/
def jacketsValue (d : Field19Data) : List Char :=
  (if d.jacketsLight then ['L'] else []) ++
  (if d.jacketsFluores then ['F'] else []) ++
  (if d.jacketsUhf then ['U'] else []) ++
  (if d.jacketsVhf then ['V'] else [])

/-- The value of the `D\` dinghies token: number, then capacity, cover
marker `C`, and colour as space-separated continuations (part_001, 615–622). -/
def dinghyValue (d : Field19Data) : List Char :=
  d.dinghiesNumber ++
  (if d.dinghiesCapacity ≠ [] then ' ' :: d.dinghiesCapacity else []) ++
  (if d.dinghiesCover then [' ', 'C'] else []) ++
  (if d.dinghiesColour ≠ [] then ' ' :: d.dinghiesColour else [])

/-- The `parts` array of `buildField19String` (part_001, 573–639), one
`(code, value)` pair per pushed `X\value` string, in push order. -/
def f19PartsCV (d : Field19Data) : List (Char × List Char) :=
  (if d.endurance ≠ [] then [('E', d.endurance)] else []) ++
  (if d.persons ≠ [] then [('P', d.persons)] else []) ++
  (if radioValue d ≠ [] then [('R', radioValue d)] else []) ++
  (if survivalValue d ≠ [] then [('S', survivalValue d)] else []) ++
  (if jacketsValue d ≠ [] then [('J', jacketsValue d)] else []) ++
  (if d.dinghiesEnabled ∧ d.dinghiesNumber ≠ [] then [('D', dinghyValue d)]
   else []) ++
  (if d.aircraftColour ≠ [] then [('A', d.aircraftColour)] else []) ++
  (if d.remarks ≠ [] then [('N', d.remarks)] else []) ++
  (if d.pilotInCommand ≠ [] then [('C', d.pilotInCommand)] else [])

/-- `buildField19String` (part_001, 573–640): the parts joined with `' '`,
each part being `code`, a backslash, and the value. -/
def buildField19String (d : Field19Data) : List Char :=
  joinSep [' '] ((f19PartsCV d).map (fun p => p.1 :: '\\' :: p.2))

/-- An uppercase ASCII letter (the `[A-Z]` class). -/
def isUpperCh (c : Char) : Bool := 'A' ≤ c && c ≤ 'Z'

/-- Earliest match of `([A-Z])\\([^ ]*)` in `s`: an uppercase letter
followed by a backslash, the value being the maximal following non-space
run.  Yields (start index, code, value). -/
def f19Find : List Char → Option (Nat × Char × List Char)
  | [] => none
  | [_] => none
  | c :: d :: rest =>
    if d = '\\' ∧ isUpperCh c = true then
      some (0, c, rest.takeWhile (fun x => x ≠ ' '))
    else (f19Find (d :: rest)).map (fun t => (t.1 + 1, t.2.1, t.2.2))

/-- The global-match loop of `parseField19String`, keeping each token's
absolute start position. -/
def tokens19Aux : Nat → Nat → List Char → List (Nat × Char × List Char)
  | 0, _, _ => []
  | fuel + 1, off, s =>
    match f19Find s with
    | none => []
    | some (i, c, v) =>
      (off + i, c, v) :: tokens19Aux fuel (off + i + 2 + v.length)
        (s.drop (i + 2 + v.length))

/-- All `X\value` tokens of a Field 19 string, with positions. -/
def tokens19 (s : List Char) : List (Nat × Char × List Char) :=
  tokens19Aux (s.length + 1) 0 s

/-- First-occurrence index search used for `str.indexOf`. -/
def idxOfAux (t : List Char) : List Char → Option Nat
  | [] => if t.isPrefixOf ([] : List Char) then some 0 else none
  | c :: rest =>
    if t.isPrefixOf (c :: rest) then some 0
    else (idxOfAux t rest).map (fun n => n + 1)

/-- JavaScript `s.indexOf(t)`: first occurrence index, `-1` if absent. -/
def idxOf (s t : List Char) : Int :=
  match idxOfAux t s with
  | some n => (n : Int)
  | none => -1

/-- The code's disambiguation of a `C\` token (part_001, 688):
`str.indexOf('C\\' + value) > str.indexOf('D\\')`. -/
def cTokCond (s v : List Char) : Bool :=
  idxOf s ('C' :: '\\' :: v) > idxOf s ['D', '\\']

/-- The per-token `switch` of `parseField19String` (part_001, 650–695);
`s` is the whole original string, used by the `C\` disambiguation. -/
def f19Step (s : List Char) (d : Field19Data) (t : Nat × Char × List Char) :
    Field19Data :=
  if t.2.1 = 'E' then { d with endurance := t.2.2 }
  else if t.2.1 = 'P' then { d with persons := t.2.2 }
  else if t.2.1 = 'R' then
    { d with radioUhf := t.2.2.contains 'U', radioVhf := t.2.2.contains 'V',
             radioElba := t.2.2.contains 'E' }
  else if t.2.1 = 'S' then
    { d with survivalPolar := t.2.2.contains 'P',
             survivalDesert := t.2.2.contains 'D',
             survivalMaritime := t.2.2.contains 'M',
             survivalJungle := t.2.2.contains 'J' }
  else if t.2.1 = 'J' then
    { d with jacketsLight := t.2.2.contains 'L',
             jacketsFluores := t.2.2.contains 'F',
             jacketsUhf := t.2.2.contains 'U',
             jacketsVhf := t.2.2.contains 'V' }
  else if t.2.1 = 'D' then
    { d with dinghiesEnabled := true, dinghiesNumber := t.2.2 }
  else if t.2.1 = 'A' then { d with aircraftColour := t.2.2 }
  else if t.2.1 = 'N' then { d with remarks := t.2.2 }
  else if t.2.1 = 'C' then
    if cTokCond s t.2.2 = true then { d with pilotInCommand := t.2.2 }
    else { d with dinghiesCover := true }
  else d

/-- `parseField19String` (part_001, 643–698). -/
def parseField19String (s : List Char) : Field19Data :=
  if s = [] then defaultField19Data
  else (tokens19 s).foldl (f19Step s) defaultField19Data

/-- Modelled from the spec: the claimed `C\` disambiguation, which compares
the **token's own position** in the string with the position of the `D\`
token, instead of the first occurrence of the token's text. -/
def f19StepPos (s : List Char) (d : Field19Data) (t : Nat × Char × List Char) :
    Field19Data :=
  if t.2.1 = 'C' then
    if (t.1 : Int) > idxOf s ['D', '\\'] then { d with pilotInCommand := t.2.2 }
    else { d with dinghiesCover := true }
  else f19Step s d t

/-- Modelled from the spec: Field 19 parsing with the position-based `C\`
rule of the claim. -/
def claimParseField19 (s : List Char) : Field19Data :=
  if s = [] then defaultField19Data
  else (tokens19 s).foldl (f19StepPos s) defaultField19Data

/-! ## Session store (`session-store.ts` 12–116) -/

/-- An active session record (`HomebriefingSession`). -/
structure HBSession where
  cookies : List Char
  token : List Char
  userSession : List Char
  expiresAt : Nat
deriving DecidableEq

/-- 30 minutes in milliseconds (`SESSION_TIMEOUT`). -/
def SESSION_TIMEOUT : Nat := 30 * 60 * 1000

/-- The sessions table, a map from (opaque, here numbered) session ids to
records. -/
def SessionTable : Type := Nat → Option HBSession

/-- `getSession` (session-store.ts 78–92): absent → not-found; past expiry
(strictly) → delete and not-found; otherwise extend the expiry to
`now + SESSION_TIMEOUT` and return the record.  Returns the result together
with the updated table. -/
def getSession (now : Nat) (table : SessionTable) (id : Nat) :
    Option HBSession × SessionTable :=
  match table id with
  | none => (none, table)
  | some s =>
    if now > s.expiresAt then
      (none, fun j => if j = id then none else table j)
    else
      let s2 : HBSession := { s with expiresAt := now + SESSION_TIMEOUT }
      (some s2, fun j => if j = id then some s2 else table j)

/-- `n` successive `getSession` calls on `id`, 20 minutes apart starting at
`t + 20min`; `true` iff every call succeeded. -/
def slideOk (id : Nat) : Nat → Nat → SessionTable → Bool
  | 0, _, _ => true
  | n + 1, t, table =>
    let t2 := t + 20 * 60 * 1000
    let r := getSession t2 table id
    r.1.isSome && slideOk id n t2 r.2

/-! ## Action permission (`canPerformActions`, session-store.ts 198–217) -/

/-- `canPerformActions`: delay/cancel actions are permitted only for
accepted status codes (48/53) and only when the `flCanDo` bitmask passes the
priority chain 7 → 4 → 16 → 3 → 1. -/
def canPerformActions (statusCode flCanDo : Nat) : Bool :=
  if statusCode ≠ 48 ∧ statusCode ≠ 53 then false
  else if flCanDo &&& 7 = 7 then false
  else if flCanDo &&& 4 = 4 then false
  else if flCanDo &&& 16 = 16 then false
  else if flCanDo &&& 3 = 3 then true
  else if flCanDo &&& 1 = 1 then true
  else false

/-! ## Validation error-entry parsing (`parseValidationResponse`,
client.ts 583–644)

Each nonempty `<FplErrors>` text is matched against
`/^(F\d+[a-z]?|FAddinfo\w+)\s+(.+)$/i`; on failure the whole text is filed
under `General`.  The matcher below realises this anchored regex: after the
leading `F` (either case) either digits with an optional letter (dropped
again when the tail cannot match) or `Addinfo` (case-insensitive) plus a
word-character run; then at least one whitespace character and a nonempty,
newline-free remainder as the message. -/

/-- An ASCII letter (the `[a-z]` class under the `i` flag). -/
def isAsciiLetter (c : Char) : Bool :=
  ('A' ≤ c && c ≤ 'Z') || ('a' ≤ c && c ≤ 'z')

/-- A word character (the `\w` class). -/
def isWordCh (c : Char) : Bool := isAsciiLetter c || isDigitCh c || c = '_'

/-- The `\s+(.+)$` tail: at least one whitespace character, then a nonempty
message every character of which `.` can match (no `'\n'`).  The greedy
whitespace run backtracks one step when it would reach the end of the
string, leaving a single trailing character as the message. -/
def matchTail (r : List Char) : Option (List Char) :=
  if (r.takeWhile isJsWs).isEmpty then none
  else
    let m := r.dropWhile isJsWs
    if m.isEmpty then
      if 2 ≤ r.length then
        match r.getLast? with
        | some c => if c = '\n' then none else some [c]
        | none => none
      else none
    else if m.contains '\n' then none
    else some m

/-- The first alternative `F\d+[a-z]?` (after the leading `F`/`f` `c`),
with the optional-letter backtrack. -/
def lfcDigits (c : Char) (rest : List Char) :
    Option (List Char × List Char) :=
  let ds := rest.takeWhile isDigitCh
  if ds.isEmpty then none
  else
    let r1 := rest.drop ds.length
    match r1 with
    | l :: r2 =>
      if isAsciiLetter l then
        match matchTail r2 with
        | some m => some (c :: ds ++ [l], m)
        | none =>
          match matchTail r1 with
          | some m => some (c :: ds, m)
          | none => none
      else
        match matchTail r1 with
        | some m => some (c :: ds, m)
        | none => none
    | [] => none

/-- The second alternative `FAddinfo\w+` (after the leading `F`/`f` `c`). -/
def lfcAddinfo (c : Char) (rest : List Char) :
    Option (List Char × List Char) :=
  if (rest.take 7).map Char.toLower = "addinfo".toList then
    let r := rest.drop 7
    let run := r.takeWhile isWordCh
    if run.isEmpty then none
    else
      match matchTail (r.drop run.length) with
      | some m => some (c :: rest.take 7 ++ run, m)
      | none => none
  else none

/-- Match `/^(F\d+[a-z]?|FAddinfo\w+)\s+(.+)$/i` against an error text,
returning the captured field code (original case) and message. -/
def leadingFieldCode (e : List Char) : Option (List Char × List Char) :=
  match e with
  | [] => none
  | c :: rest =>
    if c = 'F' ∨ c = 'f' then
      match lfcDigits c rest with
      | some r => some r
      | none => lfcAddinfo c rest
    else none

/-- One `<FplErrors>` entry of `parseValidationResponse` (client.ts
607–622): empty texts produce no entry; a matched leading field code gives
a field error, anything else is filed under `General`. -/
def parseErrorEntry (e : List Char) : Option (List Char × List Char) :=
  if e = [] then none
  else
    match leadingFieldCode e with
    | some fm => some fm
    | none => some ("General".toList, e)

/-! ## Login submit (`submitLogin`, client.ts 136–238)

The network interactions are abstracted into a transcript of responses;
each response carries the transport success flag, HTTP status, `location`
header, the cookie pairs extracted from its `set-cookie` headers, and its
body text. -/

/-- An HTTP response as observed by `submitLogin`. -/
structure HttpResp where
  ok : Bool
  status : Nat
  location : Option (List Char)
  setCookies : List (List Char × List Char)
  body : List Char
deriving DecidableEq

/-- The result record of `submitLogin`. -/
structure LoginResult where
  success : Bool
  cookies : Option (List Char)
  token : Option (List Char)
  userSession : Option (List Char)
  error : Option (List Char)
deriving DecidableEq

/-- Consume a literal. -/
def eatLit (lit s : List Char) : Option (List Char) :=
  if lit.isPrefixOf s then some (s.drop lit.length) else none

/-- Consume `\s+`. -/
def eatWs1 (s : List Char) : Option (List Char) :=
  if (s.takeWhile isJsWs).isEmpty then none else some (s.dropWhile isJsWs)

/-- Consume `\s*`. -/
def eatWs0 (s : List Char) : List Char := s.dropWhile isJsWs

/-- Consume `([^"]+)"`: a nonempty run of non-quote characters and the
closing quote, returning the captured run and the rest. -/
def eatStr (s : List Char) : Option (List Char × List Char) :=
  let v := s.takeWhile (fun c => c ≠ '"')
  if v.isEmpty then none
  else
    match s.drop v.length with
    | '"' :: r => some (v, r)
    | _ => none

/-- Match `new\s+AppController\s*\(\s*"([^"]+)"\s*,\s*"([^"]+)"` anchored at
the start of `s`, returning the two captures. -/
def appCtrlAt (s : List Char) : Option (List Char × List Char) :=
  (eatLit "new".toList s).bind fun r1 =>
  (eatWs1 r1).bind fun r2 =>
  (eatLit "AppController".toList r2).bind fun r3 =>
  (eatLit ['('] (eatWs0 r3)).bind fun r4 =>
  (eatLit ['"'] (eatWs0 r4)).bind fun r5 =>
  (eatStr r5).bind fun t1 =>
  (eatLit [','] (eatWs0 t1.2)).bind fun r6 =>
  (eatLit ['"'] (eatWs0 r6)).bind fun r7 =>
  (eatStr r7).map fun t2 => (t1.1, t2.1)

/-- Earliest match of the `AppController` pattern in the page body
(client.ts 223). -/
def appCtrlFind : List Char → Option (List Char × List Char)
  | [] => none
  | c :: rest =>
    match appCtrlAt (c :: rest) with
    | some r => some r
    | none => appCtrlFind rest

/-- `location?.includes('login.php')` (client.ts 199). -/
def locIncludesLoginPhp (o : Option (List Char)) : Bool :=
  match o with
  | none => false
  | some l => containsSub "login.php".toList l

/-- The page body the `AppController` pattern is extracted from: the
redirect-follow body on a 302, otherwise the landing-page body
(client.ts 204–220). -/
def finalHtml (indexResp redirectResp : HttpResp) : List Char :=
  if indexResp.status = 302 then redirectResp.body else indexResp.body

/-- The cookie chain merged across the login POST, the landing-page GET,
and (on a 302) the followed redirect (client.ts 167, 190, 216). -/
def finalCookies (cookies : List Char)
    (loginResp indexResp redirectResp : HttpResp) : List Char :=
  if indexResp.status = 302 then
    mergeCookies (mergeCookies (mergeCookies cookies loginResp.setCookies)
      indexResp.setCookies) redirectResp.setCookies
  else
    mergeCookies (mergeCookies cookies loginResp.setCookies)
      indexResp.setCookies

/-- `submitLogin` (client.ts 136–238) over a response transcript. -/
def submitLogin (cookies : List Char)
    (loginResp indexResp redirectResp : HttpResp) : LoginResult :=
  if loginResp.ok = false then
    { success := false, cookies := none, token := none, userSession := none,
      error := some "Login request failed".toList }
  else if (containsSub "<IsError>1</IsError>".toList loginResp.body ||
      containsSub "<LoginOK>0</LoginOK>".toList loginResp.body) = true then
    { success := false, cookies := none, token := none, userSession := none,
      error := some "Invalid credentials or captcha".toList }
  else if indexResp.status = 302 ∧
      locIncludesLoginPhp indexResp.location = true then
    { success := false, cookies := none, token := none, userSession := none,
      error := some "Login failed - redirected back to login".toList }
  else
    match appCtrlFind (finalHtml indexResp redirectResp) with
    | none =>
      { success := false, cookies := none, token := none, userSession := none,
        error := some "Failed to extract session data after login".toList }
    | some tu =>
      { success := true,
        cookies := some (finalCookies cookies loginResp indexResp redirectResp),
        token := some tu.1, userSession := some tu.2, error := none }

/-! ## Derived views of the Field 19 parse, used by the analysis -/

/-- The values of the `C\` tokens that the code's rule classifies as
pilot-in-command, in token order. -/
def pilotUpdates (s : List Char) (ts : List (Nat × Char × List Char)) :
    List (List Char) :=
  ts.filterMap (fun t =>
    if t.2.1 = 'C' ∧ cTokCond s t.2.2 = true then some t.2.2 else none)

/-- Whether some `C\` token is classified as the dinghy-cover marker. -/
def coverHit (s : List Char) (ts : List (Nat × Char × List Char)) : Bool :=
  ts.any (fun t => decide (t.2.1 = 'C') && !cTokCond s t.2.2)

/-- The values of the `D\` tokens, in token order. -/
def dinghyUpdates (ts : List (Nat × Char × List Char)) : List (List Char) :=
  ts.filterMap (fun t => if t.2.1 = 'D' then some t.2.2 else none)

/-- The pilot-in-command the code's rule produces for a whole string: the
last pilot-classified `C\` token value, or `""`. -/
def lastPilotValue (s : List Char) : List Char :=
  ((pilotUpdates s (tokens19 s)).getLast?).getD []

/-- Whether the code's rule sets the dinghy-cover flag for a whole string. -/
def anyCoverToken (s : List Char) : Bool := coverHit s (tokens19 s)

/-- The encoded parts rendered as the joined output string. -/
def partsString (ps : List (Char × List Char)) : List Char :=
  joinSep [' '] (ps.map (fun p => p.1 :: '\\' :: p.2))

/-- Parts each followed by a single space, prepended to a remainder. -/
def prepartsString (ps : List (Char × List Char)) (s2 : List Char) :
    List Char :=
  ps.foldr (fun p acc => (p.1 :: '\\' :: p.2) ++ ' ' :: acc) s2

/-- The number of characters the given parts and their separators occupy. -/
def partsLen (ps : List (Char × List Char)) : Nat :=
  (ps.map (fun p => p.2.length + 3)).sum

/-- The parts `buildField19String` pushes before the `D\` token. -/
def preParts (d : Field19Data) : List (Char × List Char) :=
  (if d.endurance ≠ [] then [('E', d.endurance)] else []) ++
  (if d.persons ≠ [] then [('P', d.persons)] else []) ++
  (if radioValue d ≠ [] then [('R', radioValue d)] else []) ++
  (if survivalValue d ≠ [] then [('S', survivalValue d)] else []) ++
  (if jacketsValue d ≠ [] then [('J', jacketsValue d)] else [])

/-- The parts pushed between the `D\` and `C\` tokens. -/
def midParts (d : Field19Data) : List (Char × List Char) :=
  (if d.aircraftColour ≠ [] then [('A', d.aircraftColour)] else []) ++
  (if d.remarks ≠ [] then [('N', d.remarks)] else [])

/-- The optional trailing pilot-in-command part. -/
def cPartL (d : Field19Data) : List (Char × List Char) :=
  if d.pilotInCommand ≠ [] then [('C', d.pilotInCommand)] else []

/-- No sub-field value contains a backslash (so the only backslashes of the
encoded string are the token separators). -/
def f19NoBackslash (d : Field19Data) : Prop :=
  '\\' ∉ d.endurance ∧ '\\' ∉ d.persons ∧ '\\' ∉ d.dinghiesNumber ∧
  '\\' ∉ d.dinghiesCapacity ∧ '\\' ∉ d.dinghiesColour ∧
  '\\' ∉ d.aircraftColour ∧ '\\' ∉ d.remarks ∧ '\\' ∉ d.pilotInCommand

instance (d : Field19Data) : Decidable (f19NoBackslash d) := by
  unfold f19NoBackslash
  infer_instance

/-! ## Concrete sample data used by witnesses and counterexamples -/

/-- C10 counterexample data: the persons sub-field embeds the text `C\Y`,
which the decoder picks up as a `C\` token lying before the `D\` token. -/
def f19BadData : Field19Data :=
  { defaultField19Data with
    persons := "X C\\Y".toList, radioVhf := false, radioElba := false,
    dinghiesEnabled := true, dinghiesNumber := "2".toList,
    dinghiesCover := true }

/-- C10 witness data: a fully populated dinghy block plus a pilot name. -/
def f19DinghySample : Field19Data :=
  { defaultField19Data with
    dinghiesEnabled := true, dinghiesNumber := "2".toList,
    dinghiesCapacity := "006".toList, dinghiesCover := true,
    dinghiesColour := "RED".toList, pilotInCommand := "SMITH".toList }


/-- A one-session concrete table used by the session-store witness. -/
def sampleTable : SessionTable := fun j =>
  if j = 0 then some ⟨[], [], [], 30 * 60 * 1000⟩ else none

/-- The Field 18 data of claim C4: `sts=["SAR"]`, `pbn=["B2","D2"]`,
`per="C"`, everything else absent. -/
def f18Sample : Field18Data :=
  { defaultField18Data with
    sts := ["SAR".toList], pbn := ["B2".toList, "D2".toList],
    per := "C".toList }

/-- The Field 19 data of claim C5: endurance `0500`, persons `002`,
`radioVhf` and `radioElba` set, everything else at its absent/false value. -/
def f19Sample : Field19Data :=
  { defaultField19Data with
    endurance := "0500".toList, persons := "002".toList }

/-- A transport-successful login POST response with no error marker. -/
def okLoginResp : HttpResp :=
  { ok := true, status := 200, location := none,
    setCookies := [("sid".toList, "1".toList)],
    body := "<LoginOK>1</LoginOK>".toList }

/-- A non-redirecting landing page containing the `AppController` call. -/
def okIndexResp : HttpResp :=
  { ok := true, status := 200, location := none, setCookies := [],
    body := "x = new AppController(\"tok99\", \"sess42\", \"u\")".toList }

/-- An unused redirect-follow response. -/
def dummyResp : HttpResp :=
  { ok := true, status := 200, location := none, setCookies := [],
    body := [] }

end Homebriefing

namespace Homebriefing

/-! ## Helper lemmas -/

theorem containsSub_characterization (t s : List Char) :
    containsSub t s = true ↔ t <:+: s := by
  unfold containsSub
  rw [List.any_eq_true]
  constructor
  · rintro ⟨i, _, hpre⟩
    rw [List.isPrefixOf_iff_prefix] at hpre
    obtain ⟨r, hr⟩ := hpre
    refine ⟨s.take i, r, ?_⟩
    rw [List.append_assoc, hr, List.take_append_drop]
  · rintro ⟨a, b, hab⟩
    have hs : s = a ++ (t ++ b) := by rw [← hab, List.append_assoc]
    refine ⟨a.length, ?_, ?_⟩
    · rw [List.mem_range, hs]
      simp only [List.length_append]
      omega
    · rw [List.isPrefixOf_iff_prefix, hs, List.drop_left]
      exact ⟨b, rfl⟩

theorem getLastD_cons (v x : List Char) (l : List (List Char)) :
    ((v :: l).getLast?).getD x = (l.getLast?).getD v := by
  cases l with
  | nil => rfl
  | cons w l2 =>
    rw [List.getLast?_cons_cons]
    cases h : (w :: l2).getLast? with
    | none => exact absurd h (by simp)
    | some u => rfl

/-- For codes other than `C` and `D`, the Field 19 token switch leaves the
dinghy- and pilot-related fields unchanged. -/
theorem f19Step_preserves (s : List Char) (d : Field19Data) (p : Nat)
    (c : Char) (v : List Char) (hC : c ≠ 'C') (hD : c ≠ 'D') :
    (f19Step s d (p, c, v)).pilotInCommand = d.pilotInCommand ∧
    (f19Step s d (p, c, v)).dinghiesCover = d.dinghiesCover ∧
    (f19Step s d (p, c, v)).dinghiesNumber = d.dinghiesNumber ∧
    (f19Step s d (p, c, v)).dinghiesEnabled = d.dinghiesEnabled ∧
    (f19Step s d (p, c, v)).dinghiesCapacity = d.dinghiesCapacity ∧
    (f19Step s d (p, c, v)).dinghiesColour = d.dinghiesColour := by
  by_cases hE : c = 'E'
  · subst hE; exact ⟨rfl, rfl, rfl, rfl, rfl, rfl⟩
  · by_cases hP : c = 'P'
    · subst hP; exact ⟨rfl, rfl, rfl, rfl, rfl, rfl⟩
    · by_cases hR : c = 'R'
      · subst hR; exact ⟨rfl, rfl, rfl, rfl, rfl, rfl⟩
      · by_cases hS : c = 'S'
        · subst hS; exact ⟨rfl, rfl, rfl, rfl, rfl, rfl⟩
        · by_cases hJ : c = 'J'
          · subst hJ; exact ⟨rfl, rfl, rfl, rfl, rfl, rfl⟩
          · by_cases hA : c = 'A'
            · subst hA; exact ⟨rfl, rfl, rfl, rfl, rfl, rfl⟩
            · by_cases hN : c = 'N'
              · subst hN; exact ⟨rfl, rfl, rfl, rfl, rfl, rfl⟩
              · unfold f19Step
                rw [if_neg hE, if_neg hP, if_neg hR, if_neg hS, if_neg hJ,
                  if_neg hD, if_neg hA, if_neg hN, if_neg hC]
                exact ⟨rfl, rfl, rfl, rfl, rfl, rfl⟩

/-- Characterization of the dinghy- and pilot-related fields of the folded
Field 19 token switch in terms of the token list. -/
theorem foldl_f19Step_fields (s : List Char)
    (ts : List (Nat × Char × List Char)) (d : Field19Data) :
    (ts.foldl (f19Step s) d).pilotInCommand =
      ((pilotUpdates s ts).getLast?).getD d.pilotInCommand ∧
    (ts.foldl (f19Step s) d).dinghiesCover =
      (d.dinghiesCover || coverHit s ts) ∧
    (ts.foldl (f19Step s) d).dinghiesNumber =
      ((dinghyUpdates ts).getLast?).getD d.dinghiesNumber ∧
    (ts.foldl (f19Step s) d).dinghiesEnabled =
      (d.dinghiesEnabled || ts.any (fun t => decide (t.2.1 = 'D'))) ∧
    (ts.foldl (f19Step s) d).dinghiesCapacity = d.dinghiesCapacity ∧
    (ts.foldl (f19Step s) d).dinghiesColour = d.dinghiesColour := by
  induction ts generalizing d with
  | nil => exact ⟨rfl, by simp [coverHit], rfl, by simp, rfl, rfl⟩
  | cons t ts ih =>
    obtain ⟨p, c, v⟩ := t
    rw [List.foldl_cons]
    by_cases hD : c = 'D'
    · subst hD
      have hstep : f19Step s d (p, 'D', v) =
          { d with dinghiesEnabled := true, dinghiesNumber := v } := rfl
      rw [hstep]
      obtain ⟨ih1, ih2, ih3, ih4, ih5, ih6⟩ :=
        ih { d with dinghiesEnabled := true, dinghiesNumber := v }
      refine ⟨?_, ?_, ?_, ?_, ih5, ih6⟩
      · rw [ih1]
        unfold pilotUpdates
        rw [List.filterMap_cons,
          if_neg (fun h => absurd h.1 (by decide : ¬ ('D' : Char) = 'C'))]
      · rw [ih2]
        unfold coverHit
        rw [List.any_cons]
        simp
      · rw [ih3]
        unfold dinghyUpdates
        rw [List.filterMap_cons, if_pos rfl, getLastD_cons]
      · rw [ih4]
        rw [List.any_cons]
        simp
    · by_cases hC : c = 'C'
      · subst hC
        have hstep : f19Step s d (p, 'C', v) =
            (if cTokCond s v = true then { d with pilotInCommand := v }
             else { d with dinghiesCover := true }) := rfl
        by_cases hcond : cTokCond s v = true
        · rw [hstep, if_pos hcond]
          obtain ⟨ih1, ih2, ih3, ih4, ih5, ih6⟩ :=
            ih { d with pilotInCommand := v }
          refine ⟨?_, ?_, ?_, ?_, ih5, ih6⟩
          · rw [ih1]
            unfold pilotUpdates
            rw [List.filterMap_cons, if_pos ⟨rfl, hcond⟩, getLastD_cons]
          · rw [ih2]
            unfold coverHit
            rw [List.any_cons]
            simp [hcond]
          · rw [ih3]
            unfold dinghyUpdates
            rw [List.filterMap_cons,
              if_neg (fun h => absurd h (by decide : ¬ ('C' : Char) = 'D'))]
          · rw [ih4]
            rw [List.any_cons]
            simp
        · rw [hstep, if_neg hcond]
          obtain ⟨ih1, ih2, ih3, ih4, ih5, ih6⟩ :=
            ih { d with dinghiesCover := true }
          have hcondf : cTokCond s v = false := by
            cases h : cTokCond s v
            · rfl
            · exact absurd h hcond
          refine ⟨?_, ?_, ?_, ?_, ih5, ih6⟩
          · rw [ih1]
            unfold pilotUpdates
            rw [List.filterMap_cons, if_neg (fun h => absurd h.2 hcond)]
          · rw [ih2]
            unfold coverHit
            rw [List.any_cons]
            simp [hcondf]
          · rw [ih3]
            unfold dinghyUpdates
            rw [List.filterMap_cons,
              if_neg (fun h => absurd h (by decide : ¬ ('C' : Char) = 'D'))]
          · rw [ih4]
            rw [List.any_cons]
            simp
      · obtain ⟨hp1, hp2, hp3, hp4, hp5, hp6⟩ :=
          f19Step_preserves s d p c v hC hD
        obtain ⟨ih1, ih2, ih3, ih4, ih5, ih6⟩ := ih (f19Step s d (p, c, v))
        refine ⟨?_, ?_, ?_, ?_, ?_, ?_⟩
        · rw [ih1, hp1]
          unfold pilotUpdates
          rw [List.filterMap_cons, if_neg (fun h => absurd h.1 hC)]
        · rw [ih2, hp2]
          unfold coverHit
          rw [List.any_cons]
          have : decide ((p, c, v).2.1 = 'C') = false := by
            simp [hC]
          rw [this]
          simp
        · rw [ih3, hp3]
          unfold dinghyUpdates
          rw [List.filterMap_cons, if_neg hD]
        · rw [ih4, hp4]
          rw [List.any_cons]
          have : decide ((p, c, v).2.1 = 'D') = false := by
            simp [hD]
          rw [this]
          simp [Bool.or_assoc]
        · exact ih5.trans hp5
        · exact ih6.trans hp6

/-! split/join round-trip lemmas -/

theorem splitSemiSp_cons_cons (c d : Char) (rest : List Char) :
    splitSemiSp (c :: d :: rest) =
      if c = ';' ∧ d = ' ' then [] :: splitSemiSp rest
      else
        match splitSemiSp (d :: rest) with
        | [] => [[c]]
        | h :: t => (c :: h) :: t := rfl

theorem splitSemiSp_single (p : List Char) (h : ';' ∉ p) :
    splitSemiSp p = [p] := by
  induction p with
  | nil => rfl
  | cons c rest ih =>
    cases rest with
    | nil => rfl
    | cons d rest2 =>
      have hc : c ≠ ';' := fun hh => h (hh ▸ List.mem_cons_self c _)
      have hr : splitSemiSp (d :: rest2) = [d :: rest2] :=
        ih (fun hm => h (List.mem_cons_of_mem _ hm))
      rw [splitSemiSp_cons_cons, if_neg (fun hand => hc hand.1), hr]

theorem splitSemiSp_append (p : List Char) (s : List Char) (h : ';' ∉ p) :
    splitSemiSp (p ++ ';' :: ' ' :: s) = p :: splitSemiSp s := by
  induction p with
  | nil =>
    rw [List.nil_append, splitSemiSp_cons_cons, if_pos ⟨rfl, rfl⟩]
  | cons c p2 ih =>
    have hc : c ≠ ';' := fun hh => h (hh ▸ List.mem_cons_self c _)
    have hp2 : ';' ∉ p2 := fun hm => h (List.mem_cons_of_mem _ hm)
    cases p2 with
    | nil =>
      rw [List.cons_append, List.nil_append, splitSemiSp_cons_cons,
        if_neg (fun hand => absurd hand.2 (by decide)),
        splitSemiSp_cons_cons, if_pos ⟨rfl, rfl⟩]
    | cons e p3 =>
      have hrec := ih hp2
      rw [List.cons_append] at hrec
      rw [List.cons_append, List.cons_append, splitSemiSp_cons_cons,
        if_neg (fun hand => hc hand.1), hrec]

theorem joinSep_cons_cons (sep : List Char) (p q : List Char)
    (rest : List (List Char)) :
    joinSep sep (p :: q :: rest) = p ++ sep ++ joinSep sep (q :: rest) := rfl

theorem splitSemiSp_joinSep (parts : List (List Char)) (hne : parts ≠ [])
    (h : ∀ p ∈ parts, ';' ∉ p) :
    splitSemiSp (joinSep [';', ' '] parts) = parts := by
  induction parts with
  | nil => exact absurd rfl hne
  | cons p rest ih =>
    cases rest with
    | nil =>
      exact splitSemiSp_single p (h p (List.mem_cons_self _ _))
    | cons q rest2 =>
      rw [joinSep_cons_cons]
      have : p ++ [';', ' '] ++ joinSep [';', ' '] (q :: rest2) =
          p ++ ';' :: ' ' :: joinSep [';', ' '] (q :: rest2) := by
        simp [List.append_assoc]
      rw [this, splitSemiSp_append p _ (h p (List.mem_cons_self _ _)),
        ih (by simp) (fun r hr => h r (List.mem_cons_of_mem _ hr))]

theorem splitEq_cons (c : Char) (rest : List Char) :
    splitEq (c :: rest) =
      if c = '=' then [] :: splitEq rest
      else
        match splitEq rest with
        | [] => [[c]]
        | h :: t => (c :: h) :: t := rfl

theorem splitEq_no (v : List Char) (h : '=' ∉ v) : splitEq v = [v] := by
  induction v with
  | nil => rfl
  | cons c rest ih =>
    have hc : c ≠ '=' := fun hh => h (hh ▸ List.mem_cons_self c _)
    rw [splitEq_cons, if_neg hc, ih (fun hm => h (List.mem_cons_of_mem _ hm))]

theorem splitEq_append (k v : List Char) (h : '=' ∉ k) :
    splitEq (k ++ '=' :: v) = k :: splitEq v := by
  induction k with
  | nil =>
    rw [List.nil_append, splitEq_cons, if_pos rfl]
  | cons c k2 ih =>
    have hc : c ≠ '=' := fun hh => h (hh ▸ List.mem_cons_self c _)
    have hrec := ih (fun hm => h (List.mem_cons_of_mem _ hm))
    rw [List.cons_append, splitEq_cons, if_neg hc, hrec]

theorem parseCookiePart_pair (k v : List Char) (hk : k ≠ []) (hv : v ≠ [])
    (hke : '=' ∉ k) (hve : '=' ∉ v) :
    parseCookiePart (k ++ '=' :: v) = some (k, v) := by
  unfold parseCookiePart
  rw [splitEq_append k v hke, splitEq_no v hve]
  show (if k ≠ [] ∧ v ≠ [] then some (k, v) else none) = some (k, v)
  rw [if_pos ⟨hk, hv⟩]

theorem takeWhile_cons_eq (p : Char → Bool) (a : Char) (l : List Char) :
    (a :: l).takeWhile p =
      (match p a with
       | true => a :: l.takeWhile p
       | false => []) := rfl

theorem dropWhile_cons_eq (p : Char → Bool) (a : Char) (l : List Char) :
    (a :: l).dropWhile p =
      (match p a with
       | true => l.dropWhile p
       | false => a :: l) := rfl

theorem takeWhile_eq_part (k v : List Char) (hke : '=' ∉ k) :
    (k ++ '=' :: v).takeWhile (fun c => c ≠ '=') = k ∧
      (k ++ '=' :: v).dropWhile (fun c => c ≠ '=') = '=' :: v := by
  induction k with
  | nil =>
    constructor
    · rw [List.nil_append, takeWhile_cons_eq]
      rfl
    · rw [List.nil_append, dropWhile_cons_eq]
      rfl
  | cons c k2 ih =>
    have hc : c ≠ '=' := fun hh => hke (hh ▸ List.mem_cons_self c _)
    obtain ⟨h1, h2⟩ := ih (fun hm => hke (List.mem_cons_of_mem _ hm))
    have hpc : decide (c ≠ '=') = true := by simp [hc]
    constructor
    · rw [List.cons_append, takeWhile_cons_eq, hpc, h1]
    · rw [List.cons_append, dropWhile_cons_eq, hpc, h2]

theorem specPart_pair (k v : List Char) (hke : '=' ∉ k) :
    ((k ++ '=' :: v).takeWhile (fun c => c ≠ '='),
      ((k ++ '=' :: v).dropWhile (fun c => c ≠ '=')).tail) = (k, v) := by
  obtain ⟨h1, h2⟩ := takeWhile_eq_part k v hke
  rw [h1, h2]
  rfl

/-! upsert lemmas -/

theorem upsert_keys_pos (m : List (List Char × List Char))
    (p : List Char × List Char) (h : m.any (fun q => q.1 = p.1) = true) :
    (upsert m p).map Prod.fst = m.map Prod.fst := by
  unfold upsert
  rw [if_pos h, List.map_map]
  apply List.map_congr_left
  intro q _
  by_cases hq : q.1 = p.1
  · simp only [Function.comp_apply]
    rw [if_pos hq]
    exact hq.symm
  · simp only [Function.comp_apply]
    rw [if_neg hq]

theorem upsert_keys_neg (m : List (List Char × List Char))
    (p : List Char × List Char) (h : m.any (fun q => q.1 = p.1) = false) :
    (upsert m p).map Prod.fst = m.map Prod.fst ++ [p.1] := by
  unfold upsert
  rw [if_neg (by rw [h]; exact fun hh => Bool.noConfusion hh)]
  simp

theorem mem_keys_upsert (m : List (List Char × List Char))
    (p : List Char × List Char) (a : List Char) :
    a ∈ (upsert m p).map Prod.fst ↔ a ∈ m.map Prod.fst ∨ a = p.1 := by
  cases h : m.any (fun q => q.1 = p.1) with
  | true =>
    rw [upsert_keys_pos m p h]
    constructor
    · exact Or.inl
    · rintro (hm | rfl)
      · exact hm
      · rw [List.any_eq_true] at h
        obtain ⟨q, hq, hq2⟩ := h
        rw [decide_eq_true_eq] at hq2
        rw [← hq2]
        exact List.mem_map_of_mem _ hq
  | false =>
    rw [upsert_keys_neg m p h]
    simp

theorem nodup_keys_upsert (m : List (List Char × List Char))
    (p : List Char × List Char) (h : (m.map Prod.fst).Nodup) :
    ((upsert m p).map Prod.fst).Nodup := by
  cases hany : m.any (fun q => q.1 = p.1) with
  | true => rw [upsert_keys_pos m p hany]; exact h
  | false =>
    rw [upsert_keys_neg m p hany]
    rw [List.nodup_append]
    refine ⟨h, List.nodup_singleton _, ?_⟩
    intro a ha hb
    rw [List.mem_singleton] at hb
    subst hb
    rw [List.any_eq_false] at hany
    rw [List.mem_map] at ha
    obtain ⟨q, hq, hq2⟩ := ha
    exact absurd (by rw [decide_eq_true_eq]; exact hq2) (hany q hq)

theorem mem_upsert_elim (m : List (List Char × List Char))
    (p q : List Char × List Char) (h : q ∈ upsert m p) :
    q = p ∨ (q ∈ m ∧ q.1 ≠ p.1) := by
  unfold upsert at h
  by_cases hany : m.any (fun r => r.1 = p.1) = true
  · rw [if_pos hany, List.mem_map] at h
    obtain ⟨r, hr, hr2⟩ := h
    by_cases hrp : r.1 = p.1
    · rw [if_pos hrp] at hr2
      exact Or.inl hr2.symm
    · rw [if_neg hrp] at hr2
      subst hr2
      exact Or.inr ⟨hr, hrp⟩
  · rw [if_neg hany, List.mem_append] at h
    rcases h with h | h
    · refine Or.inr ⟨h, fun hqp => hany ?_⟩
      rw [List.any_eq_true]
      exact ⟨q, h, by rw [decide_eq_true_eq]; exact hqp⟩
    · rw [List.mem_singleton] at h
      exact Or.inl h

/-! upsertAll lemmas -/

theorem upsertAll_cons (m : List (List Char × List Char))
    (x : List Char × List Char) (l : List (List Char × List Char)) :
    upsertAll m (x :: l) = upsertAll (upsert m x) l := rfl

theorem mem_keys_upsertAll (l : List (List Char × List Char)) :
    ∀ (m : List (List Char × List Char)) (a : List Char),
      (a ∈ (upsertAll m l).map Prod.fst ↔
        a ∈ m.map Prod.fst ∨ a ∈ l.map Prod.fst) := by
  induction l with
  | nil => intro m a; simp [upsertAll]
  | cons x l2 ih =>
    intro m a
    rw [upsertAll_cons, ih (upsert m x) a, mem_keys_upsert]
    simp only [List.map_cons, List.mem_cons]
    constructor
    · rintro ((hm | hx) | hl)
      · exact Or.inl hm
      · exact Or.inr (Or.inl hx)
      · exact Or.inr (Or.inr hl)
    · rintro (hm | hx | hl)
      · exact Or.inl (Or.inl hm)
      · exact Or.inl (Or.inr hx)
      · exact Or.inr hl

theorem nodup_keys_upsertAll (l : List (List Char × List Char)) :
    ∀ (m : List (List Char × List Char)), (m.map Prod.fst).Nodup →
      ((upsertAll m l).map Prod.fst).Nodup := by
  induction l with
  | nil => intro m h; exact h
  | cons x l2 ih =>
    intro m h
    rw [upsertAll_cons]
    exact ih (upsert m x) (nodup_keys_upsert m x h)

theorem mem_upsertAll_elim (l : List (List Char × List Char)) :
    ∀ (m : List (List Char × List Char)) (q : List Char × List Char),
      q ∈ upsertAll m l →
      q ∈ l ∨ (q ∈ m ∧ q.1 ∉ l.map Prod.fst) := by
  induction l with
  | nil => intro m q h; exact Or.inr ⟨h, by simp⟩
  | cons x l2 ih =>
    intro m q h
    rw [upsertAll_cons] at h
    rcases ih (upsert m x) q h with h2 | ⟨h2, h3⟩
    · exact Or.inl (List.mem_cons_of_mem _ h2)
    · rcases mem_upsert_elim m x q h2 with h4 | ⟨h4, h5⟩
      · exact Or.inl (h4 ▸ List.mem_cons_self _ _)
      · refine Or.inr ⟨h4, ?_⟩
        simp only [List.map_cons, List.mem_cons]
        rintro (h6 | h6)
        · exact h5 h6
        · exact h3 h6

theorem upsertAll_fresh (l : List (List Char × List Char)) :
    ∀ (acc : List (List Char × List Char)),
      (∀ p ∈ l, p.1 ∉ acc.map Prod.fst) → (l.map Prod.fst).Nodup →
      upsertAll acc l = acc ++ l := by
  induction l with
  | nil => intro acc _ _; simp [upsertAll]
  | cons x l2 ih =>
    intro acc hfresh hnd
    rw [upsertAll_cons]
    have hx : acc.any (fun q => q.1 = x.1) = false := by
      rw [List.any_eq_false]
      intro q hq
      rw [decide_eq_true_eq]
      intro hq2
      exact hfresh x (List.mem_cons_self _ _) (hq2 ▸ List.mem_map_of_mem _ hq)
    have hup : upsert acc x = acc ++ [x] := by
      unfold upsert
      rw [if_neg (by rw [hx]; exact fun hh => Bool.noConfusion hh)]
    rw [hup, ih (acc ++ [x]) ?_ (List.Nodup.of_cons (by simpa using hnd))]
    · simp
    · intro p hp
      simp only [List.map_append, List.mem_append]
      rintro (h1 | h1)
      · exact hfresh p (List.mem_cons_of_mem _ hp) h1
      · simp only [List.map_cons, List.map_nil, List.mem_singleton] at h1
        rw [List.map_cons, List.nodup_cons] at hnd
        exact hnd.1 (h1 ▸ List.mem_map_of_mem _ hp)

theorem upsert_ne_nil (m : List (List Char × List Char))
    (p : List Char × List Char) : upsert m p ≠ [] := by
  unfold upsert
  split
  · cases m with
    | nil => simp_all
    | cons a b => simp
  · simp

theorem upsertAll_ne_nil (l : List (List Char × List Char)) :
    ∀ (m : List (List Char × List Char)), m ≠ [] → upsertAll m l ≠ [] := by
  induction l with
  | nil => intro m h; exact h
  | cons x l2 ih =>
    intro m _
    rw [upsertAll_cons]
    exact ih (upsert m x) (upsert_ne_nil m x)

/-! lookup lemmas -/

theorem lookupA_of_not_mem (l : List (List Char × List Char)) (k : List Char)
    (h : k ∉ l.map Prod.fst) : lookupA l k = none := by
  induction l with
  | nil => rfl
  | cons q l2 ih =>
    unfold lookupA
    rw [List.find?_cons]
    have hq : ¬ q.1 = k := by
      intro hh
      exact h (by simp [← hh])
    rw [show (decide (q.1 = k)) = false by simp [hq]]
    exact ih (fun hm => h (List.mem_cons_of_mem _ hm))

theorem lookupA_of_mem (l : List (List Char × List Char))
    (p : List Char × List Char) (hnd : (l.map Prod.fst).Nodup)
    (h : p ∈ l) : lookupA l p.1 = some p.2 := by
  induction l with
  | nil => exact absurd h (List.not_mem_nil _)
  | cons q l2 ih =>
    rw [List.map_cons, List.nodup_cons] at hnd
    rcases List.mem_cons.mp h with rfl | hmem
    · unfold lookupA
      rw [List.find?_cons, show (decide (p.1 = p.1)) = true by simp]
      rfl
    · have hq : ¬ q.1 = p.1 := by
        intro hh
        exact hnd.1 (hh ▸ List.mem_map_of_mem _ hmem)
      unfold lookupA
      rw [List.find?_cons, show (decide (q.1 = p.1)) = false by simp [hq]]
      exact ih hnd.2 hmem


theorem filterMap_of_some {α : Type} (f : α → Option α) (l : List α)
    (h : ∀ p ∈ l, f p = some p) : l.filterMap f = l := by
  induction l with
  | nil => rfl
  | cons a l2 ih =>
    rw [List.filterMap_cons, h a (List.mem_cons_self _ _),
      ih (fun p hp => h p (List.mem_cons_of_mem _ hp))]

theorem serializeCookies_ne_nil (e : List Char × List Char)
    (rest : List (List Char × List Char)) :
    serializeCookies (e :: rest) ≠ [] := by
  unfold serializeCookies
  rw [List.map_cons]
  cases hr : rest.map (fun p => p.1 ++ '=' :: p.2) with
  | nil =>
    show e.1 ++ '=' :: e.2 ≠ []
    simp
  | cons r rs =>
    rw [joinSep_cons_cons]
    simp

theorem semi_not_mem_part (p : List Char × List Char)
    (h1 : ';' ∉ p.1) (h2 : ';' ∉ p.2) : ';' ∉ p.1 ++ '=' :: p.2 := by
  intro hmem
  rcases List.mem_append.mp hmem with h | h
  · exact h1 h
  · rcases List.mem_cons.mp h with h | h
    · exact absurd h (by decide)
    · exact h2 h

theorem splitSemiSp_serialize (entries : List (List Char × List Char))
    (e : List Char × List Char) (rest : List (List Char × List Char))
    (hcons : entries = e :: rest)
    (hent : ∀ p ∈ entries, cookieTextOk p.1 ∧ cookieTextOk p.2) :
    splitSemiSp (serializeCookies entries) =
      entries.map (fun p => p.1 ++ '=' :: p.2) := by
  unfold serializeCookies
  rw [show "; ".toList = [';', ' '] from rfl]
  apply splitSemiSp_joinSep
  · rw [hcons]; simp
  · intro part hpart
    rw [List.mem_map] at hpart
    obtain ⟨p, hp, hpe⟩ := hpart
    rw [← hpe]
    obtain ⟨⟨_, _, h1⟩, ⟨_, _, h2⟩⟩ := hent p hp
    exact semi_not_mem_part p h1 h2

theorem parseCookieHeader_serialize (entries : List (List Char × List Char))
    (hent : ∀ p ∈ entries, cookieTextOk p.1 ∧ cookieTextOk p.2)
    (hnd : (entries.map Prod.fst).Nodup) :
    parseCookieHeader (serializeCookies entries) = entries := by
  cases entries with
  | nil => rfl
  | cons e rest =>
    unfold parseCookieHeader
    rw [if_neg (serializeCookies_ne_nil e rest)]
    rw [splitSemiSp_serialize (e :: rest) e rest rfl hent]
    rw [List.filterMap_map]
    have hfm : (e :: rest).filterMap
        (parseCookiePart ∘ (fun p => p.1 ++ '=' :: p.2)) = e :: rest := by
      apply filterMap_of_some
      intro p hp
      obtain ⟨⟨hk, hke, _⟩, ⟨hv, hve, _⟩⟩ := hent p hp
      show parseCookiePart (p.1 ++ '=' :: p.2) = some p
      rw [parseCookiePart_pair p.1 p.2 hk hv hke hve]
    rw [hfm]
    rw [upsertAll_fresh (e :: rest) [] (by simp) hnd]
    rfl

theorem specParse_serialize (entries : List (List Char × List Char))
    (hent : ∀ p ∈ entries, cookieTextOk p.1 ∧ cookieTextOk p.2) :
    specParseCookie (serializeCookies entries) = entries := by
  cases entries with
  | nil => rfl
  | cons e rest =>
    unfold specParseCookie
    rw [if_neg (serializeCookies_ne_nil e rest)]
    rw [splitSemiSp_serialize (e :: rest) e rest rfl hent]
    rw [List.map_map]
    have hmap : ∀ p ∈ (e :: rest),
        ((fun q => (q.takeWhile (fun c => c ≠ '='),
            (q.dropWhile (fun c => c ≠ '=')).tail)) ∘
          (fun p => p.1 ++ '=' :: p.2)) p = id p := by
      intro p hp
      obtain ⟨⟨_, hke, _⟩, _⟩ := hent p hp
      show ((p.1 ++ '=' :: p.2).takeWhile (fun c => c ≠ '='),
        ((p.1 ++ '=' :: p.2).dropWhile (fun c => c ≠ '=')).tail) = p
      rw [specPart_pair p.1 p.2 hke]
    rw [List.map_congr_left hmap, List.map_id]

theorem lookupLastA_eq (l : List (List Char × List Char)) (k : List Char)
    (hnd : (l.map Prod.fst).Nodup) : lookupLastA l k = lookupA l k := by
  by_cases hk : k ∈ l.map Prod.fst
  · rw [List.mem_map] at hk
    obtain ⟨p, hp, hp1⟩ := hk
    rw [← hp1]
    unfold lookupLastA
    rw [lookupA_of_mem l.reverse p ?_ (List.mem_reverse.mpr hp),
      lookupA_of_mem l p hnd hp]
    rw [List.map_reverse]
    exact List.nodup_reverse.mpr hnd
  · unfold lookupLastA
    rw [lookupA_of_not_mem _ _ ?_, lookupA_of_not_mem _ _ hk]
    intro hmem
    apply hk
    rw [List.map_reverse, List.mem_reverse] at hmem
    exact hmem

/-! Field 19 scan lemmas -/

theorem upper_ne_backslash (c : Char) (h : isUpperCh c = true) : c ≠ '\\' := by
  intro heq
  rw [heq] at h
  exact absurd h (by decide)

theorem upper_ne_space (c : Char) (h : isUpperCh c = true) : c ≠ ' ' := by
  intro heq
  rw [heq] at h
  exact absurd h (by decide)

theorem f19Find_cons_cons (c d : Char) (rest : List Char) :
    f19Find (c :: d :: rest) =
      if d = '\\' ∧ isUpperCh c = true then
        some (0, c, rest.takeWhile (fun x => x ≠ ' '))
      else (f19Find (d :: rest)).map (fun t => (t.1 + 1, t.2.1, t.2.2)) := rfl

theorem f19Find_none (s : List Char) (h : '\\' ∉ s) : f19Find s = none := by
  induction s with
  | nil => rfl
  | cons c rest ih =>
    cases rest with
    | nil => rfl
    | cons d rest2 =>
      have hd : d ≠ '\\' := fun hh =>
        h (hh ▸ List.mem_cons_of_mem c (List.mem_cons_self d rest2))
      rw [f19Find_cons_cons, if_neg (fun hand => hd hand.1),
        ih (fun hm => h (List.mem_cons_of_mem _ hm))]
      rfl

theorem f19Find_skip (u : List Char) (c : Char) (w : List Char)
    (hu : '\\' ∉ u) (hc : isUpperCh c = true) :
    f19Find (u ++ c :: '\\' :: w) =
      some (u.length, c, w.takeWhile (fun x => x ≠ ' ')) := by
  induction u with
  | nil =>
    rw [List.nil_append, f19Find_cons_cons, if_pos ⟨rfl, hc⟩]
    rfl
  | cons a u2 ih =>
    have hrec := ih (fun hm => hu (List.mem_cons_of_mem _ hm))
    cases u2 with
    | nil =>
      rw [List.cons_append, List.nil_append, f19Find_cons_cons,
        if_neg (fun hand => (upper_ne_backslash c hc) hand.1),
        f19Find_cons_cons, if_pos ⟨rfl, hc⟩]
      rfl
    | cons b u3 =>
      have hb : b ≠ '\\' := fun hh =>
        hu (hh ▸ List.mem_cons_of_mem a (List.mem_cons_self b u3))
      rw [List.cons_append] at hrec
      rw [List.cons_append, List.cons_append, f19Find_cons_cons,
        if_neg (fun hand => hb hand.1)]
      rw [hrec]
      rfl

theorem tokens19Aux_nobs (s : List Char) (h : '\\' ∉ s) (f off : Nat) :
    tokens19Aux f off s = [] := by
  cases f with
  | zero => rfl
  | succ f2 =>
    unfold tokens19Aux
    rw [f19Find_none s h]

theorem drop_takeWhile_len (q : Char → Bool) (l : List Char) :
    l.drop (l.takeWhile q).length = l.dropWhile q := by
  induction l with
  | nil => rfl
  | cons c l2 ih =>
    rw [takeWhile_cons_eq, dropWhile_cons_eq]
    cases hq : q c
    · rfl
    · show (c :: l2).drop (c :: l2.takeWhile q).length = l2.dropWhile q
      show l2.drop (l2.takeWhile q).length = l2.dropWhile q
      exact ih

theorem takeWhile_stop (q : Char → Bool) (l : List Char) (x : Char)
    (y : List Char) (hx : q x = false) :
    (l ++ x :: y).takeWhile q = l.takeWhile q := by
  induction l with
  | nil =>
    rw [List.nil_append, takeWhile_cons_eq, hx]
    rfl
  | cons c l2 ih =>
    rw [List.cons_append, takeWhile_cons_eq, takeWhile_cons_eq]
    cases hq : q c
    · rfl
    · show c :: (l2 ++ x :: y).takeWhile q = c :: l2.takeWhile q
      rw [ih]

theorem takeWhile_all_true (q : Char → Bool) (l : List Char)
    (h : ∀ c ∈ l, q c = true) : l.takeWhile q = l := by
  induction l with
  | nil => rfl
  | cons c l2 ih =>
    rw [takeWhile_cons_eq, h c (List.mem_cons_self _ _),
      ih (fun x hx => h x (List.mem_cons_of_mem _ hx))]

theorem drop_append_le (l₁ l₂ : List Char) (n : Nat) (h : n ≤ l₁.length) :
    (l₁ ++ l₂).drop n = l₁.drop n ++ l₂ := by
  rw [List.drop_append_eq_append_drop, Nat.sub_eq_zero_of_le h, List.drop_zero]

/-! Parts-string structure lemmas -/

theorem prepartsString_cons (p : Char × List Char)
    (ps : List (Char × List Char)) (w : List Char) :
    prepartsString (p :: ps) w =
      (p.1 :: '\\' :: p.2) ++ ' ' :: prepartsString ps w := rfl

theorem partsString_single (p : Char × List Char) :
    partsString [p] = p.1 :: '\\' :: p.2 := rfl

theorem partsString_cons_ne (p q : Char × List Char)
    (ps : List (Char × List Char)) :
    partsString (p :: q :: ps) =
      (p.1 :: '\\' :: p.2) ++ ' ' :: partsString (q :: ps) := by
  unfold partsString
  rw [List.map_cons, List.map_cons, joinSep_cons_cons, List.append_assoc,
    List.singleton_append]

theorem partsString_head (p : Char × List Char)
    (ps : List (Char × List Char)) :
    ∃ X, partsString (p :: ps) = p.1 :: '\\' :: (p.2 ++ X) := by
  cases ps with
  | nil => exact ⟨[], by rw [partsString_single, List.append_nil]⟩
  | cons q ps2 =>
    exact ⟨' ' :: partsString (q :: ps2),
      by rw [partsString_cons_ne, List.cons_append, List.cons_append]⟩

theorem partsString_decomp (ps : List (Char × List Char))
    (q : Char × List Char) (qs : List (Char × List Char)) :
    partsString (ps ++ q :: qs) =
      prepartsString ps (partsString (q :: qs)) := by
  induction ps with
  | nil => rfl
  | cons p ps2 ih =>
    rw [List.cons_append]
    cases h : ps2 ++ q :: qs with
    | nil => exact absurd h (by simp)
    | cons r rs =>
      rw [partsString_cons_ne, ← h, ih, prepartsString_cons]

theorem length_le_partsString (ps : List (Char × List Char)) :
    ps.length ≤ (partsString ps).length := by
  induction ps with
  | nil => exact Nat.le_refl 0
  | cons p ps2 ih =>
    cases ps2 with
    | nil =>
      rw [partsString_single]
      simp only [List.length_cons, List.length_nil]
      omega
    | cons q ps3 =>
      rw [partsString_cons_ne]
      simp only [List.length_append, List.length_cons]
      simp only [List.length_cons] at ih
      omega

theorem partsLen_cons (p : Char × List Char) (ps : List (Char × List Char)) :
    partsLen (p :: ps) = p.2.length + 3 + partsLen ps := by
  unfold partsLen
  rw [List.map_cons, List.sum_cons]

theorem partsLen_append (a b : List (Char × List Char)) :
    partsLen (a ++ b) = partsLen a + partsLen b := by
  unfold partsLen
  rw [List.map_append, List.sum_append]

theorem mem_dropWhile_sub (q : Char → Bool) (l : List Char) (c : Char)
    (h : c ∈ l.dropWhile q) : c ∈ l := by
  induction l with
  | nil => exact absurd h (List.not_mem_nil c)
  | cons x l2 ih =>
    rw [dropWhile_cons_eq] at h
    cases hq : q x
    · rw [hq] at h
      exact h
    · rw [hq] at h
      exact List.mem_cons_of_mem x (ih h)

theorem drop_shift (u : List Char) (a b : Char) (w : List Char) (n : Nat) :
    (u ++ a :: b :: w).drop (u.length + 2 + n) = w.drop n := by
  induction u with
  | nil =>
    rw [List.nil_append, List.length_nil, Nat.zero_add, Nat.add_comm 2 n]
    rfl
  | cons x u2 ih =>
    rw [List.cons_append, List.length_cons,
      show u2.length + 1 + 2 + n = u2.length + 2 + n + 1 from by omega]
    show (u2 ++ a :: b :: w).drop (u2.length + 2 + n) = w.drop n
    exact ih

theorem tokens19Aux_eq_cons (f off : Nat) (s : List Char) (i : Nat) (c : Char)
    (v : List Char) (h : f19Find s = some (i, c, v)) :
    tokens19Aux (f + 1) off s =
      (off + i, c, v) :: tokens19Aux f (off + i + 2 + v.length)
        (s.drop (i + 2 + v.length)) := by
  conv_lhs => unfold tokens19Aux
  rw [h]

theorem tokens19Aux_parts (ps : List (Char × List Char)) :
    ∀ fuel off u, '\\' ∉ u →
    (∀ p ∈ ps, isUpperCh p.1 = true ∧ '\\' ∉ p.2) →
    ps.length + 1 ≤ fuel →
    (tokens19Aux fuel off (u ++ partsString ps)).map
        (fun t => (t.2.1, t.2.2)) =
      ps.map (fun p => (p.1, p.2.takeWhile (fun x => x ≠ ' '))) := by
  induction ps with
  | nil =>
    intro fuel off u hu _ _
    rw [show partsString [] = [] from rfl, List.append_nil,
      tokens19Aux_nobs u hu fuel off, List.map_nil, List.map_nil]
  | cons p qs ih =>
    intro fuel off u hu hps hfuel
    obtain ⟨f, rfl⟩ : ∃ f, fuel = f + 1 := ⟨fuel - 1, by omega⟩
    have hup : isUpperCh p.1 = true := (hps p (List.mem_cons_self _ _)).1
    have hvp : '\\' ∉ p.2 := (hps p (List.mem_cons_self _ _)).2
    cases qs with
    | nil =>
      rw [partsString_single,
        tokens19Aux_eq_cons f off (u ++ p.1 :: '\\' :: p.2) u.length p.1
          (p.2.takeWhile (fun x => x ≠ ' ')) (f19Find_skip u p.1 p.2 hu hup),
        drop_shift, drop_takeWhile_len,
        tokens19Aux_nobs (p.2.dropWhile (fun x => x ≠ ' '))
          (fun hmem => hvp (mem_dropWhile_sub _ p.2 '\\' hmem)) f
          (off + u.length + 2 + (p.2.takeWhile (fun x => x ≠ ' ')).length)]
      rfl
    | cons q qs2 =>
      rw [partsString_cons_ne]
      have hshape : u ++ ((p.1 :: '\\' :: p.2) ++
            ' ' :: partsString (q :: qs2)) =
          u ++ p.1 :: '\\' :: (p.2 ++ ' ' :: partsString (q :: qs2)) := by
        rw [List.cons_append, List.cons_append]
      rw [hshape]
      have hfind := f19Find_skip u p.1
        (p.2 ++ ' ' :: partsString (q :: qs2)) hu hup
      rw [takeWhile_stop (fun x => x ≠ ' ') p.2 ' ' (partsString (q :: qs2))
        (by decide)] at hfind
      rw [tokens19Aux_eq_cons f off _ u.length p.1
        (p.2.takeWhile (fun x => x ≠ ' ')) hfind]
      rw [drop_shift,
        drop_append_le p.2 (' ' :: partsString (q :: qs2))
          (p.2.takeWhile (fun x => x ≠ ' ')).length
          (List.takeWhile_prefix _).length_le,
        drop_takeWhile_len]
      have hre : p.2.dropWhile (fun x => x ≠ ' ') ++
            ' ' :: partsString (q :: qs2) =
          (p.2.dropWhile (fun x => x ≠ ' ') ++ [' ']) ++
            partsString (q :: qs2) := by
        rw [List.append_assoc, List.singleton_append]
      rw [hre]
      have hu2 : '\\' ∉ p.2.dropWhile (fun x => x ≠ ' ') ++ [' '] := by
        intro hmem
        rcases List.mem_append.mp hmem with hl | hr
        · exact hvp (mem_dropWhile_sub _ p.2 '\\' hl)
        · exact absurd (List.mem_singleton.mp hr) (by decide)
      have hf : (q :: qs2).length + 1 ≤ f := by
        rw [List.length_cons] at hfuel
        omega
      rw [List.map_cons,
        ih f (off + u.length + 2 + (p.2.takeWhile (fun x => x ≠ ' ')).length)
          (p.2.dropWhile (fun x => x ≠ ' ') ++ [' ']) hu2
          (fun r hr => hps r (List.mem_cons_of_mem p hr)) hf]
      rfl

theorem tokens19_parts (ps : List (Char × List Char))
    (hps : ∀ p ∈ ps, isUpperCh p.1 = true ∧ '\\' ∉ p.2) :
    (tokens19 (partsString ps)).map (fun t => (t.2.1, t.2.2)) =
      ps.map (fun p => (p.1, p.2.takeWhile (fun x => x ≠ ' '))) := by
  unfold tokens19
  exact tokens19Aux_parts ps ((partsString ps).length + 1) 0 []
    (List.not_mem_nil _) hps (Nat.succ_le_succ (length_le_partsString ps))

/-! First-occurrence index lemmas for the `C\` disambiguation -/

theorem idxOfAux_cons (t : List Char) (x : Char) (r : List Char) :
    idxOfAux t (x :: r) =
      if t.isPrefixOf (x :: r) = true then some 0
      else (idxOfAux t r).map (fun n => n + 1) := rfl

theorem idxOfAux_prefix (t : List Char) (x : Char) (r : List Char)
    (h : t <+: x :: r) : idxOfAux t (x :: r) = some 0 := by
  rw [idxOfAux_cons, if_pos (List.isPrefixOf_iff_prefix.mpr h)]

theorem not_prefixOf_head (a : Char) (t2 : List Char) (x : Char)
    (z : List Char) (hx : x ≠ a) : (a :: t2).isPrefixOf (x :: z) = false := by
  cases hp : (a :: t2).isPrefixOf (x :: z)
  · rfl
  · rw [List.isPrefixOf_iff_prefix] at hp
    exact absurd (List.cons_prefix_cons.mp hp).1.symm hx

theorem not_prefixOf_second (a : Char) (t2 : List Char) (x y : Char)
    (z : List Char) (hy : y ≠ '\\') :
    (a :: '\\' :: t2).isPrefixOf (x :: y :: z) = false := by
  cases hp : (a :: '\\' :: t2).isPrefixOf (x :: y :: z)
  · rfl
  · rw [List.isPrefixOf_iff_prefix] at hp
    have h2 := (List.cons_prefix_cons.mp (List.cons_prefix_cons.mp hp).2).1
    exact absurd h2.symm hy

theorem idxOfAux_skip_nobs (a : Char) (t2 : List Char) (u z : List Char)
    (hu : '\\' ∉ u) :
    idxOfAux (a :: '\\' :: t2) (u ++ ' ' :: z) =
      (idxOfAux (a :: '\\' :: t2) (' ' :: z)).map (fun n => n + u.length) := by
  induction u with
  | nil =>
    rw [List.nil_append]
    cases idxOfAux (a :: '\\' :: t2) (' ' :: z) with
    | none => rfl
    | some m => rfl
  | cons x u2 ih =>
    have hx2 : '\\' ∉ u2 := fun hm => hu (List.mem_cons_of_mem x hm)
    rw [List.cons_append, idxOfAux_cons]
    cases hu2 : u2 with
    | nil =>
      rw [List.nil_append,
        not_prefixOf_second a t2 x ' ' z (by decide),
        if_neg (by decide : ¬ (false = true))]
      cases idxOfAux (a :: '\\' :: t2) (' ' :: z) with
      | none => rfl
      | some m => rfl
    | cons y u3 =>
      subst hu2
      have hy : y ≠ '\\' := fun hh =>
        hx2 (hh ▸ List.mem_cons_self y u3)
      have hpre : (a :: '\\' :: t2).isPrefixOf
          (x :: ((y :: u3) ++ ' ' :: z)) = false := by
        rw [List.cons_append]
        exact not_prefixOf_second a t2 x y (u3 ++ ' ' :: z) hy
      rw [hpre, if_neg (by decide : ¬ (false = true)), ih hx2]
      cases idxOfAux (a :: '\\' :: t2) (' ' :: z) with
      | none => rfl
      | some m =>
        show some (m + (y :: u3).length + 1) = some (m + (x :: y :: u3).length)
        exact congrArg some (by simp only [List.length_cons]; omega)

theorem idxOfAux_skip_part (a : Char) (t2 : List Char) (c : Char)
    (v w : List Char) (ha : isUpperCh a = true) (hc : c ≠ a)
    (hv : '\\' ∉ v) :
    idxOfAux (a :: '\\' :: t2) ((c :: '\\' :: v) ++ ' ' :: w) =
      (idxOfAux (a :: '\\' :: t2) w).map (fun n => n + (v.length + 3)) := by
  rw [List.cons_append, List.cons_append, idxOfAux_cons,
    not_prefixOf_head a ('\\' :: t2) c _ hc,
    if_neg (by decide : ¬ (false = true)), idxOfAux_cons,
    not_prefixOf_head a ('\\' :: t2) '\\' _
      (Ne.symm (upper_ne_backslash a ha)),
    if_neg (by decide : ¬ (false = true)), idxOfAux_skip_nobs a t2 v w hv,
    idxOfAux_cons,
    not_prefixOf_head a ('\\' :: t2) ' ' w (Ne.symm (upper_ne_space a ha)),
    if_neg (by decide : ¬ (false = true))]
  cases idxOfAux (a :: '\\' :: t2) w with
  | none => rfl
  | some m =>
    show some (m + 1 + v.length + 1 + 1) = some (m + (v.length + 3))
    exact congrArg some (by omega)

theorem idxOfAux_skip_parts (a : Char) (t2 : List Char)
    (ps : List (Char × List Char)) (w : List Char) (ha : isUpperCh a = true)
    (hps : ∀ p ∈ ps, p.1 ≠ a ∧ '\\' ∉ p.2) :
    idxOfAux (a :: '\\' :: t2) (prepartsString ps w) =
      (idxOfAux (a :: '\\' :: t2) w).map (fun n => n + partsLen ps) := by
  induction ps with
  | nil =>
    show idxOfAux (a :: '\\' :: t2) w =
      (idxOfAux (a :: '\\' :: t2) w).map (fun n => n + partsLen [])
    cases idxOfAux (a :: '\\' :: t2) w with
    | none => rfl
    | some m => rfl
  | cons p ps2 ih =>
    rw [prepartsString_cons,
      idxOfAux_skip_part a t2 p.1 p.2 (prepartsString ps2 w) ha
        (hps p (List.mem_cons_self p ps2)).1
        (hps p (List.mem_cons_self p ps2)).2,
      ih (fun r hr => hps r (List.mem_cons_of_mem p hr)), partsLen_cons]
    cases idxOfAux (a :: '\\' :: t2) w with
    | none => rfl
    | some m =>
      show some (m + partsLen ps2 + (p.2.length + 3)) =
        some (m + (p.2.length + 3 + partsLen ps2))
      exact congrArg some (by omega)

/-! Structural facts about the encoded Field 19 parts -/

theorem mem_ite_list {α : Type} (x : α) (c : Prop) [Decidable c]
    (l : List α) (h : x ∈ if c then l else []) : x ∈ l := by
  by_cases hc : c
  · rw [if_pos hc] at h
    exact h
  · rw [if_neg hc] at h
    exact absurd h (List.not_mem_nil x)

theorem bs_not_mem_radioValue (d : Field19Data) : '\\' ∉ radioValue d := by
  intro h
  unfold radioValue at h
  rcases List.mem_append.mp h with h2 | h3
  · rcases List.mem_append.mp h2 with h4 | h5
    · exact absurd (List.mem_singleton.mp (mem_ite_list _ _ _ h4)) (by decide)
    · exact absurd (List.mem_singleton.mp (mem_ite_list _ _ _ h5)) (by decide)
  · exact absurd (List.mem_singleton.mp (mem_ite_list _ _ _ h3)) (by decide)

theorem bs_not_mem_survivalValue (d : Field19Data) :
    '\\' ∉ survivalValue d := by
  intro h
  unfold survivalValue at h
  rcases List.mem_append.mp h with h2 | hJ
  · rcases List.mem_append.mp h2 with h3 | hM
    · rcases List.mem_append.mp h3 with hP | hD
      · exact absurd (List.mem_singleton.mp (mem_ite_list _ _ _ hP))
          (by decide)
      · exact absurd (List.mem_singleton.mp (mem_ite_list _ _ _ hD))
          (by decide)
    · exact absurd (List.mem_singleton.mp (mem_ite_list _ _ _ hM)) (by decide)
  · exact absurd (List.mem_singleton.mp (mem_ite_list _ _ _ hJ)) (by decide)

theorem bs_not_mem_jacketsValue (d : Field19Data) :
    '\\' ∉ jacketsValue d := by
  intro h
  unfold jacketsValue at h
  rcases List.mem_append.mp h with h2 | hV
  · rcases List.mem_append.mp h2 with h3 | hU
    · rcases List.mem_append.mp h3 with hL | hF
      · exact absurd (List.mem_singleton.mp (mem_ite_list _ _ _ hL))
          (by decide)
      · exact absurd (List.mem_singleton.mp (mem_ite_list _ _ _ hF))
          (by decide)
    · exact absurd (List.mem_singleton.mp (mem_ite_list _ _ _ hU)) (by decide)
  · exact absurd (List.mem_singleton.mp (mem_ite_list _ _ _ hV)) (by decide)

theorem bs_not_mem_dinghyValue (d : Field19Data) (hbs : f19NoBackslash d) :
    '\\' ∉ dinghyValue d := by
  intro h
  unfold dinghyValue at h
  rcases List.mem_append.mp h with h2 | hCol
  · rcases List.mem_append.mp h2 with h3 | hCov
    · rcases List.mem_append.mp h3 with hNum | hCap
      · exact hbs.2.2.1 hNum
      · rcases List.mem_cons.mp (mem_ite_list _ _ _ hCap) with he | hm
        · exact absurd he (by decide)
        · exact hbs.2.2.2.1 hm
    · exact absurd (mem_ite_list _ _ _ hCov) (by decide)
  · rcases List.mem_cons.mp (mem_ite_list _ _ _ hCol) with he | hm
    · exact absurd he (by decide)
    · exact hbs.2.2.2.2.1 hm

theorem preParts_facts (d : Field19Data) (hbs : f19NoBackslash d) :
    ∀ p ∈ preParts d,
      (p.1 = 'E' ∨ p.1 = 'P' ∨ p.1 = 'R' ∨ p.1 = 'S' ∨ p.1 = 'J') ∧
      '\\' ∉ p.2 := by
  intro p hp
  unfold preParts at hp
  rcases List.mem_append.mp hp with h4 | hJ
  · rcases List.mem_append.mp h4 with h3 | hS
    · rcases List.mem_append.mp h3 with h2 | hR
      · rcases List.mem_append.mp h2 with hE | hP
        · rw [List.mem_singleton.mp (mem_ite_list _ _ _ hE)]
          exact ⟨Or.inl rfl, hbs.1⟩
        · rw [List.mem_singleton.mp (mem_ite_list _ _ _ hP)]
          exact ⟨Or.inr (Or.inl rfl), hbs.2.1⟩
      · rw [List.mem_singleton.mp (mem_ite_list _ _ _ hR)]
        exact ⟨Or.inr (Or.inr (Or.inl rfl)), bs_not_mem_radioValue d⟩
    · rw [List.mem_singleton.mp (mem_ite_list _ _ _ hS)]
      exact ⟨Or.inr (Or.inr (Or.inr (Or.inl rfl))), bs_not_mem_survivalValue d⟩
  · rw [List.mem_singleton.mp (mem_ite_list _ _ _ hJ)]
    exact ⟨Or.inr (Or.inr (Or.inr (Or.inr rfl))), bs_not_mem_jacketsValue d⟩

theorem midParts_facts (d : Field19Data) (hbs : f19NoBackslash d) :
    ∀ p ∈ midParts d, (p.1 = 'A' ∨ p.1 = 'N') ∧ '\\' ∉ p.2 := by
  intro p hp
  unfold midParts at hp
  rcases List.mem_append.mp hp with hA | hN
  · rw [List.mem_singleton.mp (mem_ite_list _ _ _ hA)]
    exact ⟨Or.inl rfl, hbs.2.2.2.2.2.1⟩
  · rw [List.mem_singleton.mp (mem_ite_list _ _ _ hN)]
    exact ⟨Or.inr rfl, hbs.2.2.2.2.2.2.1⟩

theorem f19PartsCV_decomp (d : Field19Data) (hE : d.dinghiesEnabled = true)
    (hN : d.dinghiesNumber ≠ []) :
    f19PartsCV d =
      preParts d ++ ('D', dinghyValue d) :: (midParts d ++ cPartL d) := by
  unfold f19PartsCV preParts midParts cPartL
  rw [if_pos (show d.dinghiesEnabled = true ∧ d.dinghiesNumber ≠ [] from
    ⟨hE, hN⟩)]
  simp only [List.append_assoc, List.singleton_append, List.cons_append,
    List.nil_append]

theorem f19PartsCV_facts (d : Field19Data) (hbs : f19NoBackslash d)
    (hE : d.dinghiesEnabled = true) (hN : d.dinghiesNumber ≠ []) :
    ∀ p ∈ f19PartsCV d, isUpperCh p.1 = true ∧ '\\' ∉ p.2 := by
  intro p hp
  rw [f19PartsCV_decomp d hE hN] at hp
  rcases List.mem_append.mp hp with hpre | hrest
  · obtain ⟨hcode, hv⟩ := preParts_facts d hbs p hpre
    refine ⟨?_, hv⟩
    rcases hcode with h | h | h | h | h <;> rw [h] <;> decide
  · rcases List.mem_cons.mp hrest with hD | htail
    · rw [hD]
      exact ⟨(by decide : isUpperCh 'D' = true), bs_not_mem_dinghyValue d hbs⟩
    · rcases List.mem_append.mp htail with hmid | hC
      · obtain ⟨hcode, hv⟩ := midParts_facts d hbs p hmid
        refine ⟨?_, hv⟩
        rcases hcode with h | h <;> rw [h] <;> decide
      · rw [List.mem_singleton.mp (mem_ite_list _ _ _ hC)]
        exact ⟨(by decide : isUpperCh 'C' = true), hbs.2.2.2.2.2.2.2⟩

theorem spOpt_append (l m : List Char)
    (hl : l = [] ∨ ∃ z, l = ' ' :: z) (hm : m = [] ∨ ∃ z, m = ' ' :: z) :
    l ++ m = [] ∨ ∃ z, l ++ m = ' ' :: z := by
  rcases hl with hl | ⟨z, hz⟩
  · rw [hl, List.nil_append]
    exact hm
  · exact Or.inr ⟨z ++ m, by rw [hz, List.cons_append]⟩

theorem dinghyValue_eq (d : Field19Data) :
    dinghyValue d = d.dinghiesNumber ++
      ((if d.dinghiesCapacity ≠ [] then ' ' :: d.dinghiesCapacity else []) ++
       ((if d.dinghiesCover then [' ', 'C'] else []) ++
        (if d.dinghiesColour ≠ [] then ' ' :: d.dinghiesColour else []))) := by
  unfold dinghyValue
  simp only [List.append_assoc]

theorem dinghyValue_takeWhile (d : Field19Data)
    (hsp : ' ' ∉ d.dinghiesNumber) :
    (dinghyValue d).takeWhile (fun x => x ≠ ' ') = d.dinghiesNumber := by
  have hnum : ∀ c ∈ d.dinghiesNumber,
      (fun x => decide (x ≠ ' ')) c = true := by
    intro c hc
    exact decide_eq_true (fun heq => hsp (heq ▸ hc))
  have hsfx : ((if d.dinghiesCapacity ≠ [] then ' ' :: d.dinghiesCapacity
        else []) ++
       ((if d.dinghiesCover then [' ', 'C'] else []) ++
        (if d.dinghiesColour ≠ [] then ' ' :: d.dinghiesColour else []))) =
        [] ∨
      ∃ z, ((if d.dinghiesCapacity ≠ [] then ' ' :: d.dinghiesCapacity
        else []) ++
       ((if d.dinghiesCover then [' ', 'C'] else []) ++
        (if d.dinghiesColour ≠ [] then ' ' :: d.dinghiesColour else []))) =
        ' ' :: z := by
    apply spOpt_append
    · by_cases h : d.dinghiesCapacity ≠ []
      · exact Or.inr ⟨d.dinghiesCapacity, by rw [if_pos h]⟩
      · exact Or.inl (by rw [if_neg h])
    · apply spOpt_append
      · by_cases h : d.dinghiesCover = true
        · exact Or.inr ⟨['C'], by rw [if_pos h]⟩
        · exact Or.inl (by rw [if_neg h])
      · by_cases h : d.dinghiesColour ≠ []
        · exact Or.inr ⟨d.dinghiesColour, by rw [if_pos h]⟩
        · exact Or.inl (by rw [if_neg h])
  rw [dinghyValue_eq]
  rcases hsfx with hnil | ⟨z, hz⟩
  · rw [hnil, List.append_nil]
    exact takeWhile_all_true _ _ hnum
  · rw [hz, takeWhile_stop _ _ ' ' z (by decide)]
    exact takeWhile_all_true _ _ hnum

theorem any_of_map_eq {α β : Type} (l : List α) (m : List β) (f : α → β)
    (hm : l.map f = m) (p : β → Bool) (q : α → Bool)
    (hq : ∀ x, q x = p (f x)) : l.any q = m.any p := by
  subst hm
  induction l with
  | nil => rfl
  | cons x l2 ih =>
    rw [List.any_cons, List.map_cons, List.any_cons, hq x, ih]

theorem filterMap_of_map_eq {α β γ : Type} (l : List α) (m : List β)
    (f : α → β) (hm : l.map f = m) (g : β → Option γ) (g2 : α → Option γ)
    (hg : ∀ x, g2 x = g (f x)) : l.filterMap g2 = m.filterMap g := by
  subst hm
  induction l with
  | nil => rfl
  | cons x l2 ih =>
    rw [List.filterMap_cons, List.map_cons, List.filterMap_cons, hg x, ih]

theorem any_eq_false_of {α : Type} (l : List α) (p : α → Bool)
    (h : ∀ x ∈ l, p x = false) : l.any p = false := by
  induction l with
  | nil => rfl
  | cons x l2 ih =>
    rw [List.any_cons, h x (List.mem_cons_self x l2),
      ih (fun y hy => h y (List.mem_cons_of_mem x hy))]
    rfl

theorem filterMap_eq_nil_of {α β : Type} (l : List α) (g : α → Option β)
    (h : ∀ x ∈ l, g x = none) : l.filterMap g = [] := by
  induction l with
  | nil => rfl
  | cons x l2 ih =>
    rw [List.filterMap_cons, h x (List.mem_cons_self x l2),
      ih (fun y hy => h y (List.mem_cons_of_mem x hy))]

theorem prepartsString_is_append (ps : List (Char × List Char))
    (w : List Char) : ∃ A, prepartsString ps w = A ++ w := by
  induction ps with
  | nil => exact ⟨[], rfl⟩
  | cons p ps2 ih =>
    obtain ⟨A, hA⟩ := ih
    exact ⟨(p.1 :: '\\' :: p.2) ++ ' ' :: A,
      by rw [prepartsString_cons, hA]
         simp [List.cons_append, List.append_assoc]⟩

theorem buildField19String_eq_partsString (d : Field19Data) :
    buildField19String d = partsString (f19PartsCV d) := rfl

/-! ## Claim C1 -/

/-- C1: any body containing the literal `<!DOCTYPE html`, and any body
containing `Session Expired` case-insensitively, is classified expired. -/
theorem sessionExpiry_classifies_doctype_and_phrase (s : List Char) :
    ("<!DOCTYPE html".toList <:+: s) ∨
      ("session expired".toList <:+: s.map Char.toLower) →
    isSessionExpiredResponse s = true := by
  intro h
  unfold isSessionExpiredResponse
  rcases h with h | h
  · rw [(containsSub_characterization _ _).mpr h]
    simp
  · have hpat : reTest ["session".toList, "expired".toList]
        (s.map Char.toLower) = true := by
      obtain ⟨a, b, hab⟩ := h
      have hsplit : "session expired".toList =
          "session".toList ++ (' ' :: "expired".toList) := by decide
      have hs : s.map Char.toLower =
          a ++ ("session".toList ++ (' ' :: ("expired".toList ++ b))) := by
        rw [← hab, hsplit]
        simp [List.append_assoc]
      unfold reTest
      rw [List.any_eq_true]
      refine ⟨a.length, ?_, ?_⟩
      · rw [List.mem_range, hs]
        simp only [List.length_append]
        omega
      · have hdrop : (s.map Char.toLower).drop a.length =
            "session".toList ++ (' ' :: ("expired".toList ++ b)) := by
          rw [hs, List.drop_left]
        rw [Bool.and_eq_true]
        constructor
        · rw [List.isPrefixOf_iff_prefix, hdrop]
          exact ⟨' ' :: ("expired".toList ++ b), rfl⟩
        · have hdrop2 : ((s.map Char.toLower).drop a.length).drop
              "session".toList.length = ' ' :: ("expired".toList ++ b) := by
            rw [hdrop, List.drop_left]
          rw [hdrop2]
          unfold chainFrom
          rw [List.any_eq_true]
          refine ⟨1, ?_, ?_⟩
          · rw [List.mem_range, List.length_cons]
            omega
          · have htake : (' ' :: ("expired".toList ++ b)).take 1 =
                [' '] := rfl
            have hdrop3 : (' ' :: ("expired".toList ++ b)).drop 1 =
                "expired".toList ++ b := rfl
            rw [Bool.and_eq_true, Bool.and_eq_true, htake, hdrop3]
            refine ⟨⟨by decide, ?_⟩, ?_⟩
            · rw [List.isPrefixOf_iff_prefix]
              exact ⟨b, rfl⟩
            · simp [chainFrom]
    have hmem : ["session".toList, "expired".toList] ∈
        SESSION_EXPIRY_PATTERNS := by simp [SESSION_EXPIRY_PATTERNS]
    rw [Bool.or_eq_true, Bool.or_eq_true]
    left; left
    rw [List.any_eq_true]
    exact ⟨_, hmem, hpat⟩

/-- C1 witness: concrete bodies exercising each half of the claim. -/
theorem sessionExpiry_classifies_witness :
    isSessionExpiredResponse "ok<!DOCTYPE html><x/>".toList = true ∧
      isSessionExpiredResponse "<e>SesSion ExpIred</e>".toList = true := by
  constructor
  · exact sessionExpiry_classifies_doctype_and_phrase _
      (Or.inl (by decide))
  · exact sessionExpiry_classifies_doctype_and_phrase _
      (Or.inr (by decide))

/-! ## Claim C2 -/

/-- C2 counterexample: for the existing string `x=1=2` (one cookie `x` with
value `1=2`, a legal cookie value) the merge truncates the value at the
second `'='`: the output is `x=1`, not the value the input held. -/
theorem cookieMerge_claim_counterexample :
    cookieClaimB "x=1=2".toList [] = false ∧
    mergeCookies "x=1=2".toList [] = "x=1".toList ∧
    specParseCookie "x=1=2".toList = [("x".toList, "1=2".toList)] := by
  decide

/-- C2 amended: for every existing string that serializes a wellformed
cookie set (names and values nonempty, free of `'='` and `';'`, names
distinct) and every wellformed new cookie map, every name of either input
appears in the output exactly once, with the new map's value when present
and the existing value otherwise. -/
theorem mergeCookies_wellformed (entries newC : List (List Char × List Char))
    (hent : ∀ p ∈ entries, cookieTextOk p.1 ∧ cookieTextOk p.2)
    (hnew : ∀ p ∈ newC, cookieTextOk p.1 ∧ cookieTextOk p.2)
    (hnd1 : (entries.map Prod.fst).Nodup)
    (hnd2 : (newC.map Prod.fst).Nodup) :
    cookieClaimB (serializeCookies entries) newC = true := by
  have hin : specParseCookie (serializeCookies entries) = entries :=
    specParse_serialize entries hent
  have hph : parseCookieHeader (serializeCookies entries) = entries :=
    parseCookieHeader_serialize entries hent hnd1
  have hwf2 : ∀ p ∈ upsertAll entries newC,
      cookieTextOk p.1 ∧ cookieTextOk p.2 := by
    intro p hp
    rcases mem_upsertAll_elim newC entries p hp with h | ⟨h, _⟩
    · exact hnew p h
    · exact hent p h
  have hnd3 : ((upsertAll entries newC).map Prod.fst).Nodup :=
    nodup_keys_upsertAll newC entries hnd1
  have hmc : mergeCookies (serializeCookies entries) newC =
      serializeCookies (upsertAll entries newC) := by
    unfold mergeCookies
    rw [hph]
  have hout : specParseCookie (mergeCookies (serializeCookies entries) newC) =
      upsertAll entries newC := by
    rw [hmc]
    exact specParse_serialize _ hwf2
  unfold cookieClaimB
  rw [hin, hout]
  simp only [List.all_eq_true, Bool.and_eq_true, Bool.or_eq_true,
    decide_eq_true_eq]
  refine ⟨⟨⟨⟨?_, ?_⟩, ?_⟩, ?_⟩, ?_⟩
  · intro p hp
    exact (mem_keys_upsertAll newC entries p.1).mpr
      (Or.inl (List.mem_map_of_mem _ hp))
  · intro p hp
    exact (mem_keys_upsertAll newC entries p.1).mpr
      (Or.inr (List.mem_map_of_mem _ hp))
  · intro p hp
    exact (mem_keys_upsertAll newC entries p.1).mp
      (List.mem_map_of_mem _ hp)
  · exact hnd3
  · intro p hp
    rcases mem_upsertAll_elim newC entries p hp with hpn | ⟨hpe, hnotin⟩
    · unfold mergedValueOkB
      rw [lookupA_of_mem newC p hnd2 hpn]
      simp
    · unfold mergedValueOkB
      rw [lookupA_of_not_mem newC p.1 hnotin]
      rw [lookupLastA_eq entries p.1 hnd1, lookupA_of_mem entries p hnd1 hpe]
      simp

/-- C2 witness: the spec example — existing `a=1; b=2`, new `{b: 3, c: 4}`. -/
theorem mergeCookies_wellformed_witness :
    cookieClaimB
      (serializeCookies [("a".toList, "1".toList), ("b".toList, "2".toList)])
      [("b".toList, "3".toList), ("c".toList, "4".toList)] = true :=
  mergeCookies_wellformed _ _ (by decide) (by decide) (by decide) (by decide)

/-! ## Claim C8 -/

/-- C8: bitmask 7 or 4 permit nothing regardless of status; bitmask 16
permits no delay/cancel action (only the arrival report, which is handled
separately in the UI); bitmask 3 or 1 with an accepted status (48/53)
permit delay and cancel; any non-accepted status permits nothing. -/
theorem canPerformActions_spec :
    (∀ s, canPerformActions s 7 = false ∧ canPerformActions s 4 = false ∧
        canPerformActions s 16 = false) ∧
    (canPerformActions 48 3 = true ∧ canPerformActions 48 1 = true ∧
      canPerformActions 53 3 = true ∧ canPerformActions 53 1 = true) ∧
    (∀ s m, s ≠ 48 → s ≠ 53 → canPerformActions s m = false) := by
  refine ⟨?_, by decide, ?_⟩
  · intro s
    by_cases h48 : s = 48
    · subst h48; decide
    · by_cases h53 : s = 53
      · subst h53; decide
      · unfold canPerformActions
        rw [if_pos ⟨h48, h53⟩, if_pos ⟨h48, h53⟩, if_pos ⟨h48, h53⟩]
        exact ⟨rfl, rfl, rfl⟩
  · intro s m h48 h53
    unfold canPerformActions
    rw [if_pos ⟨h48, h53⟩]

/-- C8 witness: a non-accepted status with an otherwise permitting mask. -/
theorem canPerformActions_spec_witness : canPerformActions 49 3 = false :=
  canPerformActions_spec.2.2 49 3 (by decide) (by decide)

/-! ## Claim C3 -/

/-- C3: `getSession` deletes and returns not-found strictly past expiry; on
success it slides the expiry to `now + 30min`; a session accessed every 20
minutes never expires; a session untouched for 31 minutes is absent (and
deleted) afterwards. -/
theorem getSession_sliding_expiry :
    (∀ now (table : SessionTable) id s, table id = some s →
        now > s.expiresAt →
        (getSession now table id).1 = none ∧
          (getSession now table id).2 id = none) ∧
    (∀ now (table : SessionTable) id s, table id = some s →
        now ≤ s.expiresAt →
        ∃ s2, (getSession now table id).1 = some s2 ∧
          s2.expiresAt = now + 30 * 60 * 1000 ∧
          (getSession now table id).2 id = some s2) ∧
    (∀ n t (table : SessionTable) id s, table id = some s →
        s.expiresAt = t + 30 * 60 * 1000 →
        slideOk id n t table = true) ∧
    (∀ t (table : SessionTable) id s, table id = some s →
        s.expiresAt = t + 30 * 60 * 1000 →
        (getSession (t + 31 * 60 * 1000) table id).1 = none ∧
          (getSession (t + 31 * 60 * 1000) table id).2 id = none) := by
  have hfail : ∀ now (table : SessionTable) id s, table id = some s →
      now > s.expiresAt →
      (getSession now table id).1 = none ∧
        (getSession now table id).2 id = none := by
    intro now table id s hs hgt
    refine ⟨?_, ?_⟩ <;> simp [getSession, hs, hgt]
  have hok : ∀ now (table : SessionTable) id s, table id = some s →
      now ≤ s.expiresAt →
      ∃ s2, (getSession now table id).1 = some s2 ∧
        s2.expiresAt = now + 30 * 60 * 1000 ∧
        (getSession now table id).2 id = some s2 := by
    intro now table id s hs hle
    have hng : ¬ now > s.expiresAt := by omega
    refine ⟨{ s with expiresAt := now + SESSION_TIMEOUT }, ?_, rfl, ?_⟩
    · simp [getSession, hs, hng]
    · simp [getSession, hs, hng]
  refine ⟨hfail, hok, ?_, ?_⟩
  · intro n
    induction n with
    | zero => intro t table id s _ _; rfl
    | succ k ih =>
      intro t table id s hs hexp
      have hle : t + 20 * 60 * 1000 ≤ s.expiresAt := by omega
      obtain ⟨s2, h1, h2, h3⟩ := hok (t + 20 * 60 * 1000) table id s hs hle
      unfold slideOk
      rw [Bool.and_eq_true]
      constructor
      · rw [h1]; rfl
      · exact ih (t + 20 * 60 * 1000) _ id s2 h3 h2
  · intro t table id s hs hexp
    exact hfail _ table id s hs (by omega)

/-- C3 witness: at minute 31 the sample session (created at time 0) is gone;
ten accesses 20 minutes apart all succeed. -/
theorem getSession_sliding_expiry_witness :
    ((getSession (31 * 60 * 1000) sampleTable 0).1 = none ∧
      (getSession (31 * 60 * 1000) sampleTable 0).2 0 = none) ∧
      slideOk 0 10 0 sampleTable = true := by
  constructor
  · exact getSession_sliding_expiry.2.2.2 0 sampleTable 0 _ rfl rfl
  · exact getSession_sliding_expiry.2.2.1 10 0 sampleTable 0 _ rfl rfl

/-! ## Claim C4 -/

/-- C4: encoding the sample yields `STS/SAR PBN/B2D2 PER/C` and decoding
that string recovers `sts`, `pbn` (in inserted order) and `per`. -/
theorem field18_roundtrip_example :
    buildField18String f18Sample = "STS/SAR PBN/B2D2 PER/C".toList ∧
    (parseField18String "STS/SAR PBN/B2D2 PER/C".toList).sts =
      ["SAR".toList] ∧
    (parseField18String "STS/SAR PBN/B2D2 PER/C".toList).pbn =
      ["B2".toList, "D2".toList] ∧
    (parseField18String "STS/SAR PBN/B2D2 PER/C".toList).per = "C".toList := by
  decide

/-! ## Claim C5 -/

/-- C5: encoding the sample produces `E\0500 P\002 R\VE` (so it contains
the three claimed tokens, with the radio letters in encode order `V` then
`E`), and decoding that string restores the endurance, persons and radio
booleans (indeed the entire record). -/
theorem field19_roundtrip_example :
    buildField19String f19Sample = "E\\0500 P\\002 R\\VE".toList ∧
    containsSub "E\\0500".toList (buildField19String f19Sample) = true ∧
    containsSub "P\\002".toList (buildField19String f19Sample) = true ∧
    containsSub "R\\VE".toList (buildField19String f19Sample) = true ∧
    parseField19String "E\\0500 P\\002 R\\VE".toList = f19Sample := by
  decide

/-! ## Claim C6 -/

/-- C6 counterexample: in `C\X D\1 C\X` the second `C\X` token sits after
the `D\` token, so by the claim it would be read as pilot-in-command `X`;
the code compares `indexOf("C\X")` (which finds the *first* `C\X`, before
`D\`) and files it as dinghy cover instead. -/
theorem field19_cToken_positional_counterexample :
    (parseField19String "C\\X D\\1 C\\X".toList).pilotInCommand ≠
      (claimParseField19 "C\\X D\\1 C\\X".toList).pilotInCommand ∧
    (parseField19String "C\\X D\\1 C\\X".toList).pilotInCommand = [] ∧
    (claimParseField19 "C\\X D\\1 C\\X".toList).pilotInCommand =
      "X".toList ∧
    (parseField19String "C\\X D\\1 C\\X".toList).dinghiesCover = true := by
  decide

/-- C6 amended: a `C\` token is read as pilot-in-command exactly when the
**first occurrence** of its text `C\value` in the string lies strictly
after the **first occurrence** of `D\` (an absent `D\` counting as
position `-1`); the last such token wins, and the dinghy-cover flag is set
exactly when some `C\` token fails that comparison. -/
theorem field19_cToken_firstOccurrence_rule (s : List Char) :
    (parseField19String s).pilotInCommand = lastPilotValue s ∧
    (parseField19String s).dinghiesCover = anyCoverToken s := by
  by_cases hs : s = []
  · subst hs
    exact ⟨rfl, rfl⟩
  · unfold parseField19String lastPilotValue anyCoverToken
    rw [if_neg hs]
    obtain ⟨h1, h2, _, _, _, _⟩ :=
      foldl_f19Step_fields s (tokens19 s) defaultField19Data
    refine ⟨h1, ?_⟩
    rw [h2]
    exact Bool.false_or _

/-! ## Claim C7 -/

/-- C7: `"F7 Invalid Aircraft Identification"` parses to field `F7` with
message `Invalid Aircraft Identification`; any nonempty entry whose leading
token matches neither `F`+digits+optional letter nor the `FAddinfo…` form —
in particular any entry not starting with `F`/`f`, such as
`"Something went wrong"` — is filed under `General` with the whole text as
message. -/
theorem validation_error_parsing :
    parseErrorEntry "F7 Invalid Aircraft Identification".toList =
      some ("F7".toList, "Invalid Aircraft Identification".toList) ∧
    parseErrorEntry "Something went wrong".toList =
      some ("General".toList, "Something went wrong".toList) ∧
    (∀ e, e ≠ [] → leadingFieldCode e = none →
      parseErrorEntry e = some ("General".toList, e)) ∧
    (∀ c rest, c ≠ 'F' → c ≠ 'f' → leadingFieldCode (c :: rest) = none) := by
  refine ⟨by decide, by decide, ?_, ?_⟩
  · intro e he hn
    unfold parseErrorEntry
    rw [if_neg he, hn]
  · intro c rest hF hf
    simp only [leadingFieldCode]
    rw [if_neg (fun h => h.elim hF hf)]

/-- C7 witness: a concrete entry with no leading field code. -/
theorem validation_error_parsing_witness :
    parseErrorEntry "No field code here".toList =
      some ("General".toList, "No field code here".toList) :=
  validation_error_parsing.2.2.1 _ (by decide) (by decide)

/-! ## Claim C9 -/

/-- C9: given a transport-successful login POST, `submitLogin` fails exactly
when the body carries an error marker, or the landing-page GET is a
302 back to `login.php`, or the `AppController` pattern is absent from the
final page; otherwise it succeeds carrying the merged cookies, the fresh
token and the remote-session-handle from the pattern's two captures. -/
theorem submitLogin_error_cases (cookies : List Char) (lr ir rr : HttpResp)
    (hok : lr.ok = true) :
    ((submitLogin cookies lr ir rr).success = false ↔
      ((containsSub "<IsError>1</IsError>".toList lr.body ||
        containsSub "<LoginOK>0</LoginOK>".toList lr.body) = true ∨
      (ir.status = 302 ∧ locIncludesLoginPhp ir.location = true) ∨
      appCtrlFind (finalHtml ir rr) = none)) ∧
    (∀ t u, appCtrlFind (finalHtml ir rr) = some (t, u) →
      (containsSub "<IsError>1</IsError>".toList lr.body ||
        containsSub "<LoginOK>0</LoginOK>".toList lr.body) = false →
      ¬ (ir.status = 302 ∧ locIncludesLoginPhp ir.location = true) →
      submitLogin cookies lr ir rr =
        { success := true,
          cookies := some (finalCookies cookies lr ir rr),
          token := some t, userSession := some u, error := none }) := by
  have hok2 : ¬ (lr.ok = false) := by rw [hok]; simp
  unfold submitLogin
  rw [if_neg hok2]
  by_cases hm : (containsSub "<IsError>1</IsError>".toList lr.body ||
      containsSub "<LoginOK>0</LoginOK>".toList lr.body) = true
  · rw [if_pos hm]
    constructor
    · exact iff_of_true rfl (Or.inl hm)
    · intro t u _ hmf _
      exact absurd (hm.symm.trans hmf) (by decide)
  · rw [if_neg hm]
    have hmf : (containsSub "<IsError>1</IsError>".toList lr.body ||
        containsSub "<LoginOK>0</LoginOK>".toList lr.body) = false := by
      cases h : (containsSub "<IsError>1</IsError>".toList lr.body ||
          containsSub "<LoginOK>0</LoginOK>".toList lr.body) with
      | false => rfl
      | true => exact absurd h hm
    by_cases hr : ir.status = 302 ∧ locIncludesLoginPhp ir.location = true
    · rw [if_pos hr]
      constructor
      · exact iff_of_true rfl (Or.inr (Or.inl hr))
      · intro t u _ _ hrn
        exact absurd hr hrn
    · rw [if_neg hr]
      cases hf : appCtrlFind (finalHtml ir rr) with
      | none =>
        constructor
        · exact iff_of_true rfl (Or.inr (Or.inr rfl))
        · intro t u htu _ _
          exact Option.noConfusion htu
      | some tu =>
        constructor
        · constructor
          · intro h
            exact Bool.noConfusion h
          · rintro (h | h | h)
            · exact absurd (hmf.symm.trans h) (by decide)
            · exact absurd h hr
            · exact Option.noConfusion h
        · intro t u htu _ _
          have heq : tu = (t, u) := Option.some_injective _ htu
          subst heq
          rfl

/-- C9 witness: a concrete all-good transcript yields a success carrying
the extracted token and session handle. -/
theorem submitLogin_error_cases_witness :
    submitLogin [] okLoginResp okIndexResp dummyResp =
      { success := true,
        cookies := some (finalCookies [] okLoginResp okIndexResp dummyResp),
        token := some "tok99".toList, userSession := some "sess42".toList,
        error := none } := by
  refine (submitLogin_error_cases [] okLoginResp okIndexResp dummyResp
    rfl).2 "tok99".toList "sess42".toList ?_ ?_ ?_
  · decide
  · decide
  · decide

/-! ## Claim C10 -/

/-- C10 counterexample: the claim asserts the decoded `dinghiesCover` is
always `false` after a round trip whenever the dinghy block was populated,
but for `f19BadData` (whose persons sub-field embeds the text `C\Y`) the
decoder classifies the embedded `C\` token as the dinghy-cover marker and
the decoded `dinghiesCover` comes back `true`. -/
theorem field19_dinghy_roundtrip_counterexample :
    f19BadData.dinghiesEnabled = true ∧ f19BadData.dinghiesNumber ≠ [] ∧
    f19BadData.dinghiesCover = true ∧
    (parseField19String (buildField19String f19BadData)).dinghiesCover =
      true := by
  decide

/-- C10 (amended): for Field 19 data with the dinghy block enabled, a
nonempty space-free dinghy number, any of capacity, cover or colour set,
and backslash-free sub-field values, the encoder emits capacity, the cover
marker and colour as space-separated continuations inside the single `D\`
token, and decoding the encoded string recovers `dinghiesEnabled` and
`dinghiesNumber` but loses the rest of the dinghy block: capacity and
colour decode to `""` and the cover flag to `false`. -/
theorem field19_dinghy_block_lost (d : Field19Data)
    (hE : d.dinghiesEnabled = true) (hN : d.dinghiesNumber ≠ [])
    (_hAny : d.dinghiesCapacity ≠ [] ∨ d.dinghiesCover = true ∨
      d.dinghiesColour ≠ [])
    (hbs : f19NoBackslash d) (hsp : ' ' ∉ d.dinghiesNumber) :
    containsSub ('D' :: '\\' :: dinghyValue d) (buildField19String d) =
      true ∧
    (parseField19String (buildField19String d)).dinghiesEnabled = true ∧
    (parseField19String (buildField19String d)).dinghiesNumber =
      d.dinghiesNumber ∧
    (parseField19String (buildField19String d)).dinghiesCapacity = [] ∧
    (parseField19String (buildField19String d)).dinghiesCover = false ∧
    (parseField19String (buildField19String d)).dinghiesColour = [] := by
  have hdec := f19PartsCV_decomp d hE hN
  obtain ⟨X, hX⟩ :=
    partsString_head ('D', dinghyValue d) (midParts d ++ cPartL d)
  have hX2 : partsString (('D', dinghyValue d) :: (midParts d ++ cPartL d)) =
      'D' :: '\\' :: (dinghyValue d ++ X) := hX
  have hs : buildField19String d =
      prepartsString (preParts d) ('D' :: '\\' :: (dinghyValue d ++ X)) := by
    rw [buildField19String_eq_partsString, hdec, partsString_decomp, hX2]
  obtain ⟨A, hA⟩ := prepartsString_is_append (preParts d)
    ('D' :: '\\' :: (dinghyValue d ++ X))
  have hinf : containsSub ('D' :: '\\' :: dinghyValue d)
      (buildField19String d) = true := by
    rw [containsSub_characterization]
    refine ⟨A, X, ?_⟩
    rw [hs, hA]
    simp [List.cons_append, List.append_assoc]
  have hne : buildField19String d ≠ [] := by
    intro h0
    have hlen := length_le_partsString (f19PartsCV d)
    rw [buildField19String_eq_partsString] at h0
    rw [h0, hdec] at hlen
    simp only [List.length_append, List.length_cons, List.length_nil]
      at hlen
    omega
  have hparse : parseField19String (buildField19String d) =
      (tokens19 (buildField19String d)).foldl
        (f19Step (buildField19String d)) defaultField19Data := by
    unfold parseField19String
    rw [if_neg hne]
  have hmap : (tokens19 (buildField19String d)).map
      (fun t => (t.2.1, t.2.2)) =
      (f19PartsCV d).map
        (fun p => (p.1, p.2.takeWhile (fun x => x ≠ ' '))) := by
    rw [buildField19String_eq_partsString]
    exact tokens19_parts (f19PartsCV d) (f19PartsCV_facts d hbs hE hN)
  have hpreD : ∀ p ∈ preParts d, p.1 ≠ 'D' ∧ '\\' ∉ p.2 := by
    intro p hp
    obtain ⟨hcode, hv⟩ := preParts_facts d hbs p hp
    refine ⟨?_, hv⟩
    rcases hcode with h | h | h | h | h <;> rw [h] <;> decide
  have hpreC : ∀ p ∈ preParts d, p.1 ≠ 'C' ∧ '\\' ∉ p.2 := by
    intro p hp
    obtain ⟨hcode, hv⟩ := preParts_facts d hbs p hp
    refine ⟨?_, hv⟩
    rcases hcode with h | h | h | h | h <;> rw [h] <;> decide
  have hD0 : idxOfAux ['D', '\\']
      ('D' :: '\\' :: (dinghyValue d ++ X)) = some 0 :=
    idxOfAux_prefix _ _ _ ⟨dinghyValue d ++ X, rfl⟩
  have hDfull : idxOfAux ['D', '\\'] (buildField19String d) =
      some (partsLen (preParts d)) := by
    rw [hs, idxOfAux_skip_parts 'D' [] (preParts d)
      ('D' :: '\\' :: (dinghyValue d ++ X)) (by decide) hpreD, hD0]
    show some (0 + partsLen (preParts d)) = some (partsLen (preParts d))
    rw [Nat.zero_add]
  have hidxD : idxOf (buildField19String d) ['D', '\\'] =
      (partsLen (preParts d) : Int) := by
    unfold idxOf
    rw [hDfull]
  have hCtok : ∀ _ : d.pilotInCommand ≠ [],
      cTokCond (buildField19String d)
        (d.pilotInCommand.takeWhile (fun x => x ≠ ' ')) = true := by
    intro hpil
    have hcp : cPartL d = [('C', d.pilotInCommand)] := by
      unfold cPartL
      rw [if_pos hpil]
    have hps2 : f19PartsCV d =
        (preParts d ++ ('D', dinghyValue d) :: midParts d) ++
          [('C', d.pilotInCommand)] := by
      rw [hdec, hcp, List.append_assoc, List.cons_append]
    have hsC : buildField19String d =
        prepartsString (preParts d ++ ('D', dinghyValue d) :: midParts d)
          ('C' :: '\\' :: d.pilotInCommand) := by
      rw [buildField19String_eq_partsString, hps2, partsString_decomp,
        partsString_single]
    have hfactsC : ∀ p ∈ preParts d ++ ('D', dinghyValue d) :: midParts d,
        p.1 ≠ 'C' ∧ '\\' ∉ p.2 := by
      intro p hp
      rcases List.mem_append.mp hp with hpre | hrest
      · exact hpreC p hpre
      · rcases List.mem_cons.mp hrest with hD | hmid
        · rw [hD]
          exact ⟨(by decide : ('D' : Char) ≠ 'C'),
            bs_not_mem_dinghyValue d hbs⟩
        · refine ⟨?_, (midParts_facts d hbs p hmid).2⟩
          rcases (midParts_facts d hbs p hmid).1 with h | h <;>
            rw [h] <;> decide
    have hC0 : idxOfAux
        ('C' :: '\\' :: d.pilotInCommand.takeWhile (fun x => x ≠ ' '))
        ('C' :: '\\' :: d.pilotInCommand) = some 0 := by
      apply idxOfAux_prefix
      exact List.cons_prefix_cons.mpr ⟨rfl,
        List.cons_prefix_cons.mpr ⟨rfl, List.takeWhile_prefix _⟩⟩
    have hCfull : idxOfAux
        ('C' :: '\\' :: d.pilotInCommand.takeWhile (fun x => x ≠ ' '))
        (buildField19String d) =
        some (partsLen
          (preParts d ++ ('D', dinghyValue d) :: midParts d)) := by
      rw [hsC, idxOfAux_skip_parts 'C' _ _ _ (by decide) hfactsC, hC0]
      show some (0 + partsLen
          (preParts d ++ ('D', dinghyValue d) :: midParts d)) = _
      rw [Nat.zero_add]
    have hidxC : idxOf (buildField19String d)
        ('C' :: '\\' :: d.pilotInCommand.takeWhile (fun x => x ≠ ' ')) =
        (partsLen (preParts d ++ ('D', dinghyValue d) :: midParts d) :
          Int) := by
      unfold idxOf
      rw [hCfull]
    unfold cTokCond
    apply decide_eq_true
    rw [hidxC, hidxD, partsLen_append, partsLen_cons]
    omega
  have hqC : coverHit (buildField19String d)
      (tokens19 (buildField19String d)) = false := by
    have hcm : coverHit (buildField19String d)
        (tokens19 (buildField19String d)) =
        ((f19PartsCV d).map
          (fun p => (p.1, p.2.takeWhile (fun x => x ≠ ' ')))).any
          (fun q => decide (q.1 = 'C') &&
            !cTokCond (buildField19String d) q.2) :=
      any_of_map_eq _ _ _ hmap _ _ (fun t => rfl)
    rw [hcm]
    apply any_eq_false_of
    intro q hq
    rw [List.mem_map] at hq
    obtain ⟨p, hp, rfl⟩ := hq
    show (decide (p.1 = 'C') && !cTokCond (buildField19String d)
      (p.2.takeWhile (fun x => x ≠ ' '))) = false
    rw [hdec] at hp
    rcases List.mem_append.mp hp with hpre | hrest
    · rw [decide_eq_false (hpreC p hpre).1]
      rfl
    · rcases List.mem_cons.mp hrest with hD | htail
      · rw [hD]
        show (decide (('D' : Char) = 'C') &&
          !cTokCond (buildField19String d)
            ((dinghyValue d).takeWhile (fun x => x ≠ ' '))) = false
        rw [show decide (('D' : Char) = 'C') = false from by decide]
        rfl
      · rcases List.mem_append.mp htail with hmid | hC
        · have hne2 : ¬ (p.1 = 'C') := by
            rcases (midParts_facts d hbs p hmid).1 with h | h <;>
              rw [h] <;> decide
          rw [decide_eq_false hne2]
          rfl
        · have hpil : d.pilotInCommand ≠ [] := by
            intro h0
            rw [show cPartL d = [] from by
              unfold cPartL
              rw [if_neg (fun hh => hh h0)]] at hC
            exact absurd hC (List.not_mem_nil p)
          unfold cPartL at hC
          rw [List.mem_singleton.mp (mem_ite_list _ _ _ hC)]
          show (decide (('C' : Char) = 'C') &&
            !cTokCond (buildField19String d)
              (d.pilotInCommand.takeWhile (fun x => x ≠ ' '))) = false
          rw [hCtok hpil]
          decide
  have hanyD : (tokens19 (buildField19String d)).any
      (fun t => decide (t.2.1 = 'D')) = true := by
    have ham : (tokens19 (buildField19String d)).any
        (fun t => decide (t.2.1 = 'D')) =
        ((f19PartsCV d).map
          (fun p => (p.1, p.2.takeWhile (fun x => x ≠ ' ')))).any
          (fun q => decide (q.1 = 'D')) :=
      any_of_map_eq _ _ _ hmap _ _ (fun t => rfl)
    rw [ham, hdec, List.map_append, List.any_append, List.map_cons,
      List.any_cons]
    simp
  have hupd : dinghyUpdates (tokens19 (buildField19String d)) =
      [(dinghyValue d).takeWhile (fun x => x ≠ ' ')] := by
    have hdm : dinghyUpdates (tokens19 (buildField19String d)) =
        ((f19PartsCV d).map
          (fun p => (p.1, p.2.takeWhile (fun x => x ≠ ' ')))).filterMap
          (fun q => if q.1 = 'D' then some q.2 else none) :=
      filterMap_of_map_eq _ _ _ hmap _ _ (fun t => rfl)
    have h1 : ((preParts d).map
        (fun p => (p.1, p.2.takeWhile (fun x => x ≠ ' ')))).filterMap
        (fun q => if q.1 = 'D' then some q.2 else none) = [] := by
      apply filterMap_eq_nil_of
      intro q hq
      rw [List.mem_map] at hq
      obtain ⟨p, hp, rfl⟩ := hq
      show (if p.1 = 'D' then
        some (p.2.takeWhile (fun x => x ≠ ' ')) else none) = none
      rw [if_neg (hpreD p hp).1]
    have h2 : ((midParts d).map
        (fun p => (p.1, p.2.takeWhile (fun x => x ≠ ' ')))).filterMap
        (fun q => if q.1 = 'D' then some q.2 else none) = [] := by
      apply filterMap_eq_nil_of
      intro q hq
      rw [List.mem_map] at hq
      obtain ⟨p, hp, rfl⟩ := hq
      show (if p.1 = 'D' then
        some (p.2.takeWhile (fun x => x ≠ ' ')) else none) = none
      have hne2 : ¬ (p.1 = 'D') := by
        rcases (midParts_facts d hbs p hp).1 with h | h <;>
          rw [h] <;> decide
      rw [if_neg hne2]
    have h3 : ((cPartL d).map
        (fun p => (p.1, p.2.takeWhile (fun x => x ≠ ' ')))).filterMap
        (fun q => if q.1 = 'D' then some q.2 else none) = [] := by
      apply filterMap_eq_nil_of
      intro q hq
      rw [List.mem_map] at hq
      obtain ⟨p, hp, rfl⟩ := hq
      unfold cPartL at hp
      rw [List.mem_singleton.mp (mem_ite_list _ _ _ hp)]
      show (if ('C' : Char) = 'D' then
        some (d.pilotInCommand.takeWhile (fun x => x ≠ ' ')) else none) =
        none
      rw [if_neg (by decide : ¬ (('C' : Char) = 'D'))]
    rw [hdm, hdec, List.map_append, List.filterMap_append, h1,
      List.nil_append, List.map_cons, List.filterMap_cons,
      List.map_append, List.filterMap_append, h2, List.nil_append, h3]
    simp
  obtain ⟨hf1, hf2, hf3, hf4, hf5, hf6⟩ := foldl_f19Step_fields
    (buildField19String d) (tokens19 (buildField19String d))
    defaultField19Data
  refine ⟨hinf, ?_, ?_, ?_, ?_, ?_⟩
  · rw [hparse, hf4, hanyD]
    rfl
  · rw [hparse, hf3, hupd, List.getLast?_singleton, Option.getD_some]
    exact dinghyValue_takeWhile d hsp
  · rw [hparse, hf5]
    rfl
  · rw [hparse, hf2, hqC]
    rfl
  · rw [hparse, hf6]
    rfl

/-- C10 witness: the amended statement at a populated dinghy block (two
dinghies, capacity 006, covered, colour RED) with a pilot name present. -/
theorem field19_dinghy_block_lost_witness :
    containsSub ('D' :: '\\' :: dinghyValue f19DinghySample)
      (buildField19String f19DinghySample) = true ∧
    (parseField19String
      (buildField19String f19DinghySample)).dinghiesEnabled = true ∧
    (parseField19String
      (buildField19String f19DinghySample)).dinghiesNumber =
      f19DinghySample.dinghiesNumber ∧
    (parseField19String
      (buildField19String f19DinghySample)).dinghiesCapacity = [] ∧
    (parseField19String
      (buildField19String f19DinghySample)).dinghiesCover = false ∧
    (parseField19String
      (buildField19String f19DinghySample)).dinghiesColour = [] :=
  field19_dinghy_block_lost f19DinghySample (by decide) (by decide)
    (by decide) (by decide) (by decide)

end Homebriefing
